import Mathlib

/-!
# leveldb-repl: tokenizer, range scans, handlers and dispatch

A shallow embedding of `src/main.cpp` (the argument tokenizer `parseString`,
the handlers `del`, `get`, `list`, `rlist`, `set` and `help`, the callback
`autocomplete` and the dispatch of `main`) together with the properties proved
of it.

Conventions of the embedding.

* A C string is the list of the characters that precede its terminating NUL.
  Reading `input[in]` at the end of the list reads that NUL; a NUL met inside
  the list is treated the same way, so the definitions follow the source on
  every list.
* A cursor (`*inputString`) is the number of characters it has been advanced.
* The buffer `output` and its index `out` are the list of the characters
  written so far. The buffer holds `LINE_MAX` bytes and the line editor hands
  over shorter lines, on which the list and the buffer agree.
* The keys of the database are byte strings under the bytewise order of the
  store's default comparator, which is the lexicographic order of lists.
* What a handler does is the list of the texts it prints, the list of the
  calls it makes on the store, and the store it leaves.
-/

namespace LevelDBRepl

/-! ## Characters -/

/-- The NUL character that ends a C string. -/
def NUL : Char := Char.ofNat 0

/-- The single quote character. -/
def SQUOTE : Char := Char.ofNat 39

/-- The double quote character. -/
def DQUOTE : Char := Char.ofNat 34

/-- The backslash character. -/
def BACKSLASH : Char := Char.ofNat 92

/-- `isspace` of `<ctype.h>` in the C locale: space, `\t`, `\n`, `\v`, `\f`, `\r`. -/
def isspace (c : Char) : Bool :=
  c = ' ' || c = Char.ofNat 9 || c = Char.ofNat 10 || c = Char.ofNat 11 ||
    c = Char.ofNat 12 || c = Char.ofNat 13

/-- The size of the line buffers (line 41). -/
def LINE_MAX : Nat := 4096

/-! ## The tokenizer `parseString` (main.cpp, lines 220-302) -/

/-- What a call of `parseString` hands back, one constructor per kind of `return`:
`absent` is the `return NULL` of line 230 (nothing but whitespace was left),
`error` is the `return NULL` of lines 256 and 291 (the cursor has been advanced),
`token s` is the `return strdup(output)` of line 301. -/
inductive Outcome where
  | absent : Outcome
  | error : Outcome
  | token (s : List Char) : Outcome
  deriving DecidableEq, Repr

/-- The pointer the C caller receives: `NULL` (here `none`) for `absent` and for
`error` alike, the duplicated buffer for a token. -/
def Outcome.toPtr : Outcome → Option (List Char)
  | .absent => none
  | .error => none
  | .token s => some s

/-- The inner `switch` of lines 261-292: the character an escape stands for, or
`none` in the `default` case. -/
def escapeChar (c : Char) : Option Char :=
  if c = SQUOTE then some SQUOTE
  else if c = DQUOTE then some DQUOTE
  else if c = BACKSLASH then some BACKSLASH
  else if c = '/' then some '/'
  else if c = 'b' then some (Char.ofNat 8)
  else if c = 'f' then some (Char.ofNat 12)
  else if c = 'n' then some (Char.ofNat 10)
  else if c = 'r' then some (Char.ofNat 13)
  else if c = 't' then some (Char.ofNat 9)
  else none

/-- The loop `while (isspace(input[in])) ++in;` of lines 225-226, started at
index `i` with `rest` the characters from `input[i]` on. It returns the
characters from the new `input[in]` on, and the new `in`. -/
def skipSpaces : List Char → Nat → List Char × Nat
  | [], i => ([], i)
  | c :: cs, i => if isspace c then skipSpaces cs (i + 1) else (c :: cs, i)

/-- What the loop does when `input[in]` is NUL (lines 252-257): a token that
waits for a blank ends here, one that waits for a quote is an error; the
cursor is `in` in both cases. -/
def atEnd (terminator : Char) (i : Nat) (out : List Char) : Outcome × Nat :=
  if terminator = ' ' then (.token out, i) else (.error, i)

/-- The `for (;;)` loop of lines 244-298, entered with `input[in]` the head of
the list, `i` the value of `in` and `out` the characters written to `output`
so far. The result is the outcome and the amount added to `*inputString`. -/
def scanLoop (terminator : Char) : List Char → Nat → List Char → Outcome × Nat
  | [], i, out => atEnd terminator i out
  | c :: cs, i, out =>
    if c = terminator then (.token out, i + 1)
    else if c = NUL then atEnd terminator i out
    else if c = BACKSLASH then
      match cs with
      | [] => (.error, i + 1)
      | d :: ds =>
        match escapeChar d with
        | some e => scanLoop terminator ds (i + 2) (out ++ [e])
        | none => (.error, i + 1)
    else scanLoop terminator cs (i + 1) (out ++ [c])

/-- The `switch` of lines 228-240 followed by the scan, with `input[in]` the
head of the list. -/
def afterSpaces : List Char → Nat → Outcome × Nat
  | [], _ => (.absent, 0)
  | c :: cs, i =>
    if c = NUL then (.absent, 0)
    else if c = SQUOTE ∨ c = DQUOTE then scanLoop c cs (i + 1) []
    else scanLoop ' ' (c :: cs) i []

/-- `parseString(&input)`: the outcome, and the number of characters by which
the cursor `*inputString` has been advanced. -/
def parseString (input : List Char) : Outcome × Nat :=
  afterSpaces (skipSpaces input 0).1 (skipSpaces input 0).2

/-- Calling `parseString` `n` times on the same cursor, as the handlers do:
the outcomes in order. -/
def parseMany : Nat → List Char → List Outcome
  | 0, _ => []
  | n + 1, input => (parseString input).1 :: parseMany n (input.drop (parseString input).2)

/-! ## Specification vocabulary for the tokenizer -/

/-- The escapes as the specification lists them: the character that follows the
backslash, paired with the character the escape stands for (quote, double
quote, backslash, slash, backspace, form feed, newline, carriage return,
tab). -/
def escapeTable : List (Char × Char) :=
  [(SQUOTE, SQUOTE), (DQUOTE, DQUOTE), (BACKSLASH, BACKSLASH), ('/', '/'),
   ('b', Char.ofNat 8), ('f', Char.ofNat 12), ('n', Char.ofNat 10), ('r', Char.ofNat 13),
   ('t', Char.ofNat 9)]

/-- One unit of the text of a token: a character written as itself, or a
backslash followed by `d`, which stands for `e`. -/
inductive Piece where
  | plain (c : Char) : Piece
  | escape (d e : Char) : Piece
  deriving DecidableEq, Repr

/-- The characters of the input that write a piece. -/
def Piece.source : Piece → List Char
  | .plain c => [c]
  | .escape d _ => [BACKSLASH, d]

/-- The character a piece contributes to the token. -/
def Piece.value : Piece → Char
  | .plain c => c
  | .escape _ e => e

/-- A piece that can stand before the terminator: a plain character is neither
the terminator, nor a backslash, nor the NUL that ends the string; an escape is
one of those the specification lists. -/
def Piece.ok (terminator : Char) : Piece → Bool
  | .plain c => c ≠ terminator && c ≠ BACKSLASH && c ≠ NUL
  | .escape d e => decide ((d, e) ∈ escapeTable)

/-- The input text of a sequence of pieces. -/
def sources : List Piece → List Char
  | [] => []
  | p :: ps => p.source ++ sources ps

/-- The token a sequence of pieces stands for. -/
def values (ps : List Piece) : List Char := ps.map Piece.value

/-- The cursor is at the end of the string: `input[in]` is the terminating NUL. -/
def atNul : List Char → Bool
  | [] => true
  | c :: _ => c = NUL

/-- A backslash at the head of `rest` that is followed by none of the listed
escape characters (the end of the string included). -/
def badEscape : List Char → Bool
  | [] => false
  | c :: cs =>
    c = BACKSLASH &&
      match cs with
      | [] => true
      | d :: _ => escapeTable.all fun de => de.1 ≠ d

/-- A text on which a bare (unquoted) token starts: its first character is
neither whitespace, nor a quote, nor the NUL that ends the string. -/
def bareStart : List Char → Bool
  | [] => false
  | c :: _ => !isspace c && c ≠ SQUOTE && c ≠ DQUOTE && c ≠ NUL

/-- The pieces of a text written without any escape. -/
def plains (v : List Char) : List Piece := v.map Piece.plain

/-- An argument as it is written on the line: bare, or between two quote
characters `q`. -/
inductive Written where
  | bare (v : List Char) : Written
  | quoted (q : Char) (v : List Char) : Written
  deriving DecidableEq, Repr

/-- The value of a written argument. -/
def Written.value : Written → List Char
  | .bare v => v
  | .quoted _ v => v

/-- The text of a written argument. -/
def Written.text : Written → List Char
  | .bare v => v
  | .quoted q v => q :: (v ++ [q])

/-- A well-written argument: a bare value is not
empty and has no whitespace, quote or backslash; a quoted value is enclosed in
`'` or `"`, does not contain that quote and has no backslash. No value contains
the NUL that ends a C string. -/
def Written.ok : Written → Bool
  | .bare v =>
    !v.isEmpty && v.all fun c =>
      !isspace c && c ≠ SQUOTE && c ≠ DQUOTE && c ≠ BACKSLASH && c ≠ NUL
  | .quoted q v =>
    (q = SQUOTE || q = DQUOTE) && v.all fun c => c ≠ q && c ≠ BACKSLASH && c ≠ NUL

/-- The written arguments joined by single spaces. -/
def joinLine : List Written → List Char
  | [] => []
  | [w] => w.text
  | w :: w' :: ws => w.text ++ ' ' :: joinLine (w' :: ws)

/-! ## The store and its iterator -/

/-- A key of the store: a byte string. The order on keys is the lexicographic
order of lists, which is the order of `Slice::compare` (bytes first, then
length) and of the store's default bytewise comparator. -/
abbrev Key := List Char

/-- Modelled from the spec: the external ordered key-value store, as the list
of its entries in key order. Only the keys matter to the scans. -/
structure DB where
  entries : List (Key × List Char)

/-- The keys of the store, in the order the store holds them. -/
def DB.keys (db : DB) : List Key := db.entries.map Prod.fst

/-- A store is well formed when its keys are strictly ascending: every key
occurs once and the iteration order is the key order. -/
def DB.WF (db : DB) : Prop := db.keys.Sorted (· < ·)

/-- Modelled from the spec: the external bidirectional cursor over the keys of
the store (seek-to-first, seek-to-last, seek, next, prev). `pos` is the index
of the current key; the cursor is invalid when `pos` is `none` or lies outside
the keys. -/
structure Iterator (K : Type) where
  keys : List K
  pos : Option Nat

namespace Iterator

variable {K : Type}

/-- Modelled from the spec: `iterator->key()`, defined when the cursor is valid. -/
def key? (it : Iterator K) : Option K := it.pos.bind fun i => it.keys[i]?

/-- Modelled from the spec: `iterator->Valid()`. -/
def Valid (it : Iterator K) : Bool := it.key?.isSome

/-- Modelled from the spec: `iterator->SeekToFirst()`. -/
def SeekToFirst (it : Iterator K) : Iterator K := { it with pos := some 0 }

/-- Modelled from the spec: `iterator->SeekToLast()`. -/
def SeekToLast (it : Iterator K) : Iterator K :=
  { it with pos := if it.keys.length = 0 then none else some (it.keys.length - 1) }

/-- Modelled from the spec: the index of the first key at or after `target`
among `ks`, whose first element has index `i`. -/
def firstAtLeast [LinearOrder K] (target : K) : List K → Nat → Option Nat
  | [], _ => none
  | k :: ks, i => if target ≤ k then some i else firstAtLeast target ks (i + 1)

/-- Modelled from the spec: `iterator->Seek(target)`, seek to the first key that
is at or after `target`. -/
def Seek [LinearOrder K] (it : Iterator K) (target : K) : Iterator K :=
  { it with pos := firstAtLeast target it.keys 0 }

/-- Modelled from the spec: `iterator->Next()`. -/
def Next (it : Iterator K) : Iterator K := { it with pos := it.pos.map (· + 1) }

/-- Modelled from the spec: `iterator->Prev()`; stepping back from the first key
leaves the cursor invalid. -/
def Prev (it : Iterator K) : Iterator K :=
  { it with pos := match it.pos with
      | some (i + 1) => some i
      | _ => none }

end Iterator

/-- Modelled from the spec: `database->NewIterator(ReadOptions())`, a cursor over
the keys of the store, not yet positioned. -/
def DB.NewIterator (db : DB) : Iterator Key := { keys := db.keys, pos := none }

/-! ## The range scans `list` and `rlist` (main.cpp, lines 140-183) -/

section Scans

variable {K : Type} [LinearOrder K]

/-- The test `end && key.compare(end) > 0` of line 147, which breaks the loop
of `list`. -/
def pastEnd (e : Option K) (key : K) : Bool :=
  match e with
  | some b => decide (b < key)
  | none => false

/-- The test `end && key.compare(end) < 0` of line 175, which breaks the loop
of `rlist`. -/
def beforeEnd (e : Option K) (key : K) : Bool :=
  match e with
  | some b => decide (key < b)
  | none => false

/-- The `for` loop of `list` (lines 145-150) once the cursor is positioned: the
keys printed, in order. `none` means that the fuel ran out before the loop
ended. -/
def listLoop (e : Option K) : Nat → Iterator K → Option (List K)
  | 0, _ => none
  | fuel + 1, it =>
    match it.key? with
    | none => some []
    | some key =>
      if pastEnd e key then some []
      else (listLoop e fuel it.Next).map (key :: ·)

/-- The positioning of the cursor in `list` (line 145):
`start ? iterator->Seek(start) : iterator->SeekToFirst()`. -/
def listSeek (it : Iterator K) (start : Option K) : Iterator K :=
  match start with
  | some s => it.Seek s
  | none => it.SeekToFirst

/-- The seek adjustment of `rlist` (lines 163-171). -/
def rlistSeek (it : Iterator K) (start : Option K) : Iterator K :=
  match start with
  | some s =>
    match (it.Seek s).key? with
    | none => (it.Seek s).SeekToLast
    | some key => if s < key then (it.Seek s).Prev else it.Seek s
  | none => it.SeekToLast

/-- The `for` loop of `rlist` (lines 173-178): the keys printed, in order.
`none` means that the fuel ran out before the loop ended. -/
def rlistLoop (e : Option K) : Nat → Iterator K → Option (List K)
  | 0, _ => none
  | fuel + 1, it =>
    match it.key? with
    | none => some []
    | some key =>
      if beforeEnd e key then some []
      else (rlistLoop e fuel it.Prev).map (key :: ·)

end Scans

/-- The inclusive range of the specification: the keys `k` with `lo ≤ k` when a
lower bound is present and `k ≤ hi` when an upper bound is present, both
bounds inclusive. -/
def inRange {K : Type} [LinearOrder K] (lo hi : Option K) (k : K) : Bool :=
  (match lo with
    | some a => decide (a ≤ k)
    | none => true) &&
  (match hi with
    | some b => decide (k ≤ b)
    | none => true)

/-- The first two lines of `list` and of `rlist`: `start` and `end` are two
successive calls of `parseString` on the same cursor, each a pointer that is
`NULL` (`none`) unless a token was returned. -/
def parseBounds (args : List Char) : Option Key × Option Key :=
  ((parseString args).1.toPtr,
   (parseString (args.drop (parseString args).2)).1.toPtr)

/-- The handler `list` (lines 140-155): the keys it prints, one per line, in
order. The loop visits each key at most once, so a fuel of one more than the
number of keys lets it end. -/
def list (db : DB) (args : List Char) : Option (List Key) :=
  listLoop (parseBounds args).2 (db.keys.length + 1)
    (listSeek db.NewIterator (parseBounds args).1)

/-- The handler `rlist` (lines 157-183): the keys it prints, one per line, in
order. -/
def rlist (db : DB) (args : List Char) : Option (List Key) :=
  rlistLoop (parseBounds args).2 (db.keys.length + 1)
    (rlistSeek db.NewIterator (parseBounds args).1)

/-- A store with the four keys `a`, `b`, `c`, `d`, each with an empty value. -/
def abcd : DB :=
  { entries := [("a".toList, []), ("b".toList, []), ("c".toList, []), ("d".toList, [])] }

/-! ## The store's operations and what a handler does -/

/-- Modelled from the spec: the status a store operation returns, `ok` or the
"not found" of a read. -/
inductive Status where
  | ok : Status
  | notFound : Status
  deriving DecidableEq, Repr

/-- Modelled from the spec: `status.ok()`. -/
def Status.isOk : Status → Bool
  | .ok => true
  | .notFound => false

/-- Modelled from the spec: `status.ToString()`, the store's own text for a
status. -/
def Status.ToString : Status → List Char
  | .ok => "OK".toList
  | .notFound => "NotFound: ".toList

/-- Modelled from the spec: `database->Get(ReadOptions(), key, &value)` on the
entries of the store: the status, and the value read (empty when not
found). -/
def getEntry (key : Key) : List (Key × List Char) → Status × List Char
  | [] => (.notFound, [])
  | (k, v) :: rest => if key = k then (.ok, v) else getEntry key rest

/-- Modelled from the spec: the entries after `Put(key, value)`: the value of
`key` is replaced, or the entry is added at its place in key order. -/
def putEntry (key : Key) (value : List Char) : List (Key × List Char) → List (Key × List Char)
  | [] => [(key, value)]
  | (k, v) :: rest =>
    if key < k then (key, value) :: (k, v) :: rest
    else if key = k then (key, value) :: rest
    else (k, v) :: putEntry key value rest

/-- Modelled from the spec: `database->Get`. -/
def DB.Get (db : DB) (key : Key) : Status × List Char := getEntry key db.entries

/-- Modelled from the spec: `database->Put`, which succeeds on a store that is a
map. -/
def DB.Put (db : DB) (key : Key) (value : List Char) : Status × DB :=
  (.ok, { entries := putEntry key value db.entries })

/-- Modelled from the spec: `database->Delete` with the `char *` it is given.
The key is built from the pointer by measuring the string it points to; for a
null pointer (`none`) that is not defined, and the result is `none`. Deleting
a key succeeds whether or not the key was stored. -/
def DB.Delete (db : DB) (key : Option Key) : Option (Status × DB) :=
  match key with
  | none => none
  | some k => some (.ok, { entries := db.entries.filter fun kv => kv.1 ≠ k })

/-- A call a handler makes on the store. The key of `Delete` is the pointer
that `del` passes on as it is, `none` when it is `NULL`. -/
inductive StoreCall where
  | NewIterator : StoreCall
  | Get (key : Key) : StoreCall
  | Put (key : Key) (value : List Char) : StoreCall
  | Delete (key : Option Key) : StoreCall
  deriving DecidableEq, Repr

/-- What running a handler does: the texts it prints, one per `printf`, the
calls it makes on the store, and the store it leaves. `undefined` is set when
the handler has gone into behaviour that C does not define; the other fields
then hold what happened before. -/
structure Effect where
  out : List (List Char)
  calls : List StoreCall
  db : DB
  undefined : Bool

/-- What `printf("%s", s.c_str())` prints of a byte string: its bytes up to the
first NUL. -/
def cstr (s : List Char) : List Char := s.takeWhile fun c => c ≠ NUL

/-- The text of `printf("Invalid key specified.\n")` (lines 126 and 190). -/
def INVALID_KEY : List Char := "Invalid key specified.\n".toList

/-- The handler `get` (lines 122-138). -/
def get (db : DB) (args : List Char) : Effect :=
  match (parseString args).1.toPtr with
  | none => { out := [INVALID_KEY], calls := [], db := db, undefined := false }
  | some key =>
    { out :=
        [if (db.Get key).1.isOk then cstr (db.Get key).2 ++ "\n".toList
         else "Error reading '".toList ++ key ++ "' from database: ".toList ++
           (db.Get key).1.ToString ++ "\n".toList],
      calls := [.Get key], db := db, undefined := false }

/-- The handler `set` (lines 185-203): both tokens are read before the key is
looked at, and a `NULL` value becomes the empty string. -/
def set (db : DB) (args : List Char) : Effect :=
  match (parseString args).1.toPtr with
  | none => { out := [INVALID_KEY], calls := [], db := db, undefined := false }
  | some key =>
    let value := ((parseString (args.drop (parseString args).2)).1.toPtr).getD []
    { out :=
        if (db.Put key value).1.isOk then []
        else ["Error inserting '".toList ++ key ++ "' into database: ".toList ++
          (db.Put key value).1.ToString ++ "\n".toList],
      calls := [.Put key value], db := (db.Put key value).2, undefined := false }

/-- The handler `del` (lines 112-120): the pointer returned by `parseString` is
passed to `Delete` as it is. -/
def del (db : DB) (args : List Char) : Effect :=
  match db.Delete (parseString args).1.toPtr with
  | none =>
    { out := [], calls := [.Delete (parseString args).1.toPtr], db := db, undefined := true }
  | some r =>
    { out :=
        if r.1.isOk then []
        else ["Error deleting '".toList ++ ((parseString args).1.toPtr).getD [] ++
          "' from database: ".toList ++ r.1.ToString ++ "\n".toList],
      calls := [.Delete (parseString args).1.toPtr], db := r.2, undefined := false }

/-- The text of `printf("%s\n", key.ToString().c_str())` (lines 149 and 177). -/
def keyLine (k : Key) : List Char := cstr k ++ "\n".toList

/-- The effect of a scan that prints the keys `ks`: one line per key, through
an iterator of the store, which is left as it was. When the fuel of the scan
ran out (`none`), nothing is counted as printed. -/
def scanEffect (db : DB) (ks : Option (List Key)) : Effect :=
  { out := (ks.getD []).map keyLine, calls := [.NewIterator], db := db, undefined := false }

/-! ## The command registry, `help`, `autocomplete` and the dispatch of `main` -/

/-- The handlers a command of the registry can point to. -/
inductive Handler where
  | del : Handler
  | get : Handler
  | list : Handler
  | rlist : Handler
  | set : Handler
  | help : Handler
  deriving DecidableEq, Repr

/-- An entry of `COMMANDS` (lines 27-32). -/
structure Command where
  name : List Char
  args : List Char
  description : List Char
  handler : Handler
  deriving DecidableEq, Repr

/-- The registry `COMMANDS` (lines 33-39). -/
def COMMANDS : List Command :=
  [ { name := "del".toList, args := "<key>".toList,
      description := "Deletes <key> from the database.".toList, handler := .del },
    { name := "get".toList, args := "<key>".toList,
      description := "Prints the value of <key>.".toList, handler := .get },
    { name := "list".toList, args := "[start] [end]".toList,
      description := "Prints out keys in the range [start, end] inclusive.".toList,
      handler := .list },
    { name := "rlist".toList, args := "[start] [end]".toList,
      description :=
        "Prints out keys in the range [start, end] inclusive in reverse key order.".toList,
      handler := .rlist },
    { name := "set".toList, args := "<key> <value>".toList,
      description := "Sets the <value> of <key>.".toList, handler := .set },
    { name := "help".toList, args := "[command]".toList,
      description := "Shows help about the specified command.".toList, handler := .help } ]

/-- The conversion `%-Ns` of `printf`: the string, then blanks up to a width of
`n`. -/
def padRight (n : Nat) (s : List Char) : List Char := s ++ List.replicate (n - s.length) ' '

/-- The text of `printf("%-5s %-20s %s\n", name, args, description)` (lines 209
and 214). -/
def helpLine (c : Command) : List Char :=
  padRight 5 c.name ++ " ".toList ++ padRight 20 c.args ++ " ".toList ++ c.description ++
    "\n".toList

/-- The first loop of `help` (lines 207-211) over the commands that are left:
the line printed before `goto exit`, or `none` when the loop ends without a
match. -/
def helpLoop (command : List Char) : List Command → Option (List Char)
  | [] => none
  | c :: cs => if c.name = command then some (helpLine c) else helpLoop command cs

/-- The handler `help` (lines 205-218): the texts it prints. The first loop
runs only when `command` is not `NULL`. -/
def help (args : List Char) : List (List Char) :=
  match (match (parseString args).1.toPtr with
      | some command => helpLoop command COMMANDS
      | none => none) with
  | some line => [line]
  | none => COMMANDS.map helpLine

/-- The C library's `strncmp(a, b, n)` on strings given by their characters: the
sign of the first difference among the first `n` characters, the end of a
string counting as NUL. -/
def strncmp : List Char → List Char → Nat → Int
  | _, _, 0 => 0
  | [], [], _ + 1 => 0
  | [], _ :: _, _ + 1 => -1
  | _ :: _, [], _ + 1 => 1
  | a :: as, b :: bs, n + 1 =>
    if a = b then strncmp as bs n else if a < b then -1 else 1

/-- The loop of `autocomplete` (lines 107-109) over the commands that are left,
with `completions` the names offered so far; `linenoiseAddCompletion` adds a
name at the end. -/
def autocompleteLoop (pre : List Char) : List Command → List (List Char) → List (List Char)
  | [], completions => completions
  | c :: cs, completions =>
    if strncmp c.name pre pre.length = 0 then autocompleteLoop pre cs (completions ++ [c.name])
    else autocompleteLoop pre cs completions

/-- The callback `autocomplete` (lines 106-110): the completions after the
call. -/
def autocomplete (pre : List Char) (completions : List (List Char)) : List (List Char) :=
  autocompleteLoop pre COMMANDS completions

/-- The C library's `sscanf(line, "%s", command)` into a buffer of zeros:
whitespace is skipped, then the characters up to the next whitespace or the
end of the string are stored. -/
def sscanfWord (line : List Char) : List Char :=
  (line.dropWhile isspace).takeWhile fun c => !isspace c && c ≠ NUL

/-- The C library's `strstr(haystack, needle)`: the offset of the first
occurrence of `needle`, or `none` for `NULL`. -/
def strstr : List Char → List Char → Option Nat
  | [], needle => if needle = [] then some 0 else none
  | h :: hay, needle =>
    if needle.isPrefixOf (h :: hay) then some 0 else (strstr hay needle).map (· + 1)

/-- A call of a handler through the registry: the handler, and the pointer it
is given, which is `strstr(line, command) + strlen(command)`. -/
structure Invocation where
  handler : Handler
  args : Option (List Char)
  deriving DecidableEq, Repr

/-- The loop of `main` over the registry (lines 68-74) for the commands that are
left: the calls of handlers it makes. The loop breaks at the first name that
equals `command`. -/
def dispatchLoop (line command : List Char) : List Command → List Invocation
  | [] => []
  | c :: cs =>
    if c.name = command then
      [{ handler := c.handler,
         args := (strstr line command).map fun off => line.drop (off + command.length) }]
    else dispatchLoop line command cs

/-- The calls of handlers that `main` makes for a line (lines 64-74). -/
def dispatch (line : List Char) : List Invocation :=
  dispatchLoop line (sscanfWord line) COMMANDS

/-- The call `COMMANDS[i].handler(args)`. -/
def runHandler (h : Handler) (db : DB) (args : List Char) : Effect :=
  match h with
  | .del => del db args
  | .get => get db args
  | .list => scanEffect db (list db args)
  | .rlist => scanEffect db (rlist db args)
  | .set => set db args
  | .help => { out := help args, calls := [], db := db, undefined := false }

/-- One after the other, the calls of handlers of a line. -/
def runInvocations (db : DB) : List Invocation → Effect
  | [] => { out := [], calls := [], db := db, undefined := false }
  | inv :: rest =>
    match inv.args with
    | none => { out := [], calls := [], db := db, undefined := true }
    | some a =>
      { out := (runHandler inv.handler db a).out ++
          (runInvocations (runHandler inv.handler db a).db rest).out,
        calls := (runHandler inv.handler db a).calls ++
          (runInvocations (runHandler inv.handler db a).db rest).calls,
        db := (runInvocations (runHandler inv.handler db a).db rest).db,
        undefined := (runHandler inv.handler db a).undefined ||
          (runInvocations (runHandler inv.handler db a).db rest).undefined }

/-- The body of the loop of `main` for a trimmed line that is not empty (lines
64-77): the handlers called, then the message for a command that was not
recognized. -/
def mainBody (db : DB) (line : List Char) : Effect :=
  { out := (runInvocations db (dispatch line)).out ++
      (if (dispatch line).isEmpty then
        ["Unrecognized command '".toList ++ sscanfWord line ++ "'.\n".toList]
       else []),
    calls := (runInvocations db (dispatch line)).calls,
    db := (runInvocations db (dispatch line)).db,
    undefined := (runInvocations db (dispatch line)).undefined }

/-! ## The tokenizer with its buffer of `LINE_MAX` bytes -/

/-- The loop of lines 244-298 with `output` a buffer of `cap` bytes: as
`scanLoop`, but `none` when the loop writes `output[out]` outside the buffer,
or when the terminating NUL that `strdup` reads would lie outside it. -/
def scanLoopBuf (cap : Nat) (terminator : Char) :
    List Char → Nat → List Char → Option (Outcome × Nat)
  | [], i, out =>
    if terminator = ' ' then (if out.length < cap then some (.token out, i) else none)
    else some (.error, i)
  | c :: cs, i, out =>
    if c = terminator then (if out.length < cap then some (.token out, i + 1) else none)
    else if c = NUL then
      if terminator = ' ' then (if out.length < cap then some (.token out, i) else none)
      else some (.error, i)
    else if c = BACKSLASH then
      match cs with
      | [] => some (.error, i + 1)
      | d :: ds =>
        match escapeChar d with
        | some e =>
          if out.length < cap then scanLoopBuf cap terminator ds (i + 2) (out ++ [e])
          else none
        | none => some (.error, i + 1)
    else if out.length < cap then scanLoopBuf cap terminator cs (i + 1) (out ++ [c])
    else none

/-- The function `parseString` with `output` a buffer of `cap` bytes. -/
def parseStringBuf (cap : Nat) (input : List Char) : Option (Outcome × Nat) :=
  match (skipSpaces input 0).1 with
  | [] => some (.absent, 0)
  | c :: cs =>
    if c = NUL then some (.absent, 0)
    else if c = SQUOTE ∨ c = DQUOTE then scanLoopBuf cap c cs ((skipSpaces input 0).2 + 1) []
    else scanLoopBuf cap ' ' (c :: cs) (skipSpaces input 0).2 []

/-- The C library's `strlen` on a list that may hold a NUL: the number of
characters before the first NUL. -/
def strlen (s : List Char) : Nat := (s.takeWhile fun c => c ≠ NUL).length

/-! ## The tokenizer: how a call proceeds -/

/-- The `switch` on the escape character agrees with the table of the
specification. -/
theorem escapeChar_eq_some_iff (d e : Char) :
    escapeChar d = some e ↔ (d, e) ∈ escapeTable := by
  constructor
  · intro h
    unfold escapeChar at h
    split_ifs at h <;> cases h <;> subst_vars <;> decide
  · intro h
    simp only [escapeTable, List.mem_cons, Prod.mk.injEq, List.mem_singleton,
      List.not_mem_nil, or_false] at h
    rcases h with h | h | h | h | h | h | h | h | h <;> obtain ⟨rfl, rfl⟩ := h <;> decide

/-- The `default` case of the `switch` is taken for the characters that are not
in the table. -/
theorem escapeChar_eq_none_iff (d : Char) :
    escapeChar d = none ↔ (escapeTable.all fun de => de.1 ≠ d) = true := by
  constructor
  · intro h
    simp only [List.all_eq_true, decide_eq_true_eq]
    rintro ⟨d', e⟩ hmem rfl
    rw [(escapeChar_eq_some_iff d' e).2 hmem] at h
    cases h
  · intro h
    cases hd : escapeChar d with
    | none => rfl
    | some e =>
      have hmem := (escapeChar_eq_some_iff d e).1 hd
      simp only [List.all_eq_true, decide_eq_true_eq] at h
      exact absurd rfl (h (d, e) hmem)

/-- The whitespace loop skips the longest run of whitespace. -/
theorem skipSpaces_eq :
    ∀ (input : List Char) (i : Nat),
      skipSpaces input i = (input.dropWhile isspace, i + (input.takeWhile isspace).length)
  | [], i => rfl
  | c :: cs, i => by
    unfold skipSpaces
    by_cases h : isspace c = true
    · rw [if_pos h, skipSpaces_eq cs (i + 1), List.dropWhile_cons_of_pos h,
        List.takeWhile_cons_of_pos h]
      simp only [List.length_cons]
      congr 1
      omega
    · rw [if_neg h, List.dropWhile_cons_of_neg h, List.takeWhile_cons_of_neg h]
      rfl

/-- The loop at the end of the list. -/
theorem scanLoop_nil (terminator : Char) (i : Nat) (out : List Char) :
    scanLoop terminator [] i out = atEnd terminator i out := by
  rw [scanLoop.eq_def]

/-- One turn of the loop on a character. -/
theorem scanLoop_cons (terminator c : Char) (cs : List Char) (i : Nat) (out : List Char) :
    scanLoop terminator (c :: cs) i out =
      if c = terminator then (.token out, i + 1)
      else if c = NUL then atEnd terminator i out
      else if c = BACKSLASH then
        match cs with
        | [] => (.error, i + 1)
        | d :: ds =>
          match escapeChar d with
          | some e => scanLoop terminator ds (i + 2) (out ++ [e])
          | none => (.error, i + 1)
      else scanLoop terminator cs (i + 1) (out ++ [c]) := by
  rw [scanLoop.eq_def]

/-- The scanning loop goes through a run of pieces, adding their sources to the
cursor and their values to the output. -/
theorem scanLoop_sources (terminator : Char) (hterm : terminator ≠ BACKSLASH) :
    ∀ (ps : List Piece) (rest : List Char) (i : Nat) (out : List Char),
      ps.all (Piece.ok terminator) = true →
      scanLoop terminator (sources ps ++ rest) i out =
        scanLoop terminator rest (i + (sources ps).length) (out ++ values ps)
  | [], rest, i, out, _ => by simp [sources, values]
  | .plain c :: ps, rest, i, out, h => by
    simp only [List.all_cons, Bool.and_eq_true, Piece.ok, decide_eq_true_eq,
      Bool.decide_eq_true] at h
    obtain ⟨⟨⟨h1, h2⟩, h3⟩, hps⟩ := h
    show scanLoop terminator (c :: (sources ps ++ rest)) i out = _
    rw [scanLoop_cons, if_neg h1, if_neg h3, if_neg h2,
      scanLoop_sources terminator hterm ps rest (i + 1) (out ++ [c]) hps]
    simp only [sources, Piece.source, values, List.map_cons, Piece.value, List.length_append,
      List.length_cons, List.length_nil, List.append_assoc, List.singleton_append]
    congr 1
    omega
  | .escape d e :: ps, rest, i, out, h => by
    simp only [List.all_cons, Bool.and_eq_true, Piece.ok, decide_eq_true_eq] at h
    obtain ⟨hde, hps⟩ := h
    show scanLoop terminator (BACKSLASH :: d :: (sources ps ++ rest)) i out = _
    rw [scanLoop_cons, if_neg (Ne.symm hterm), if_neg (by decide), if_pos rfl]
    simp only [(escapeChar_eq_some_iff d e).2 hde]
    rw [scanLoop_sources terminator hterm ps rest (i + 2) (out ++ [e]) hps]
    simp only [sources, Piece.source, values, List.map_cons, Piece.value, List.length_append,
      List.length_cons, List.length_nil, List.append_assoc, List.singleton_append]
    congr 1
    omega

/-- At the terminator the loop returns the token and steps over the
terminator. -/
theorem scanLoop_terminator (terminator : Char) (rest : List Char) (i : Nat)
    (out : List Char) :
    scanLoop terminator (terminator :: rest) i out = (.token out, i + 1) := by
  rw [scanLoop_cons, if_pos rfl]

/-- At the end of the string the loop returns as `atEnd` says. -/
theorem scanLoop_atNul (terminator : Char) (hterm : terminator ≠ NUL) (rest : List Char)
    (i : Nat) (out : List Char) (h : atNul rest = true) :
    scanLoop terminator rest i out = atEnd terminator i out := by
  cases rest with
  | nil => rw [scanLoop_nil]
  | cons c cs =>
    simp only [atNul, decide_eq_true_eq] at h
    subst h
    rw [scanLoop_cons, if_neg (Ne.symm hterm), if_pos rfl]

/-- At a backslash that starts no listed escape the loop returns an error,
with the cursor on the character after the backslash. -/
theorem scanLoop_badEscape (terminator : Char) (hterm : terminator ≠ BACKSLASH)
    (rest : List Char) (i : Nat) (out : List Char) (h : badEscape rest = true) :
    scanLoop terminator rest i out = (.error, i + 1) := by
  cases rest with
  | nil => simp [badEscape] at h
  | cons c cs =>
    simp only [badEscape, Bool.and_eq_true, decide_eq_true_eq] at h
    obtain ⟨rfl, h⟩ := h
    rw [scanLoop_cons, if_neg (Ne.symm hterm), if_neg (by decide), if_pos rfl]
    cases cs with
    | nil => rfl
    | cons d ds =>
      simp only
      rw [(escapeChar_eq_none_iff d).2 h]

/-- Every text splits into a run of pieces that can stand before the terminator
and a rest at which the loop stops: the end of the string, the terminator, or
a backslash that starts no listed escape. -/
theorem exists_pieces (terminator : Char) :
    ∀ (body : List Char), ∃ ps rest, body = sources ps ++ rest ∧
      ps.all (Piece.ok terminator) = true ∧
      (atNul rest = true ∨ rest.head? = some terminator ∨ badEscape rest = true)
  | [] => ⟨[], [], rfl, rfl, Or.inl rfl⟩
  | [c] => by
    by_cases h1 : c = terminator
    · exact ⟨[], [c], rfl, rfl, Or.inr (Or.inl (by simp [h1]))⟩
    by_cases h2 : c = NUL
    · exact ⟨[], [c], rfl, rfl, Or.inl (by simp [atNul, h2])⟩
    by_cases h3 : c = BACKSLASH
    · exact ⟨[], [c], rfl, rfl, Or.inr (Or.inr (by simp [badEscape, h3]))⟩
    · exact ⟨[.plain c], [], rfl, by simp [Piece.ok, h1, h2, h3], Or.inl rfl⟩
  | c :: d :: ds => by
    by_cases h1 : c = terminator
    · exact ⟨[], c :: d :: ds, rfl, rfl, Or.inr (Or.inl (by simp [h1]))⟩
    by_cases h2 : c = NUL
    · exact ⟨[], c :: d :: ds, rfl, rfl, Or.inl (by simp [atNul, h2])⟩
    by_cases h3 : c = BACKSLASH
    · cases hd : escapeChar d with
      | none =>
        refine ⟨[], c :: d :: ds, rfl, rfl, Or.inr (Or.inr ?_)⟩
        simp only [badEscape, h3, decide_True, Bool.true_and]
        exact (escapeChar_eq_none_iff d).1 hd
      | some e =>
        obtain ⟨ps, rest, hbody, hok, hstop⟩ := exists_pieces terminator ds
        refine ⟨.escape d e :: ps, rest, ?_, ?_, hstop⟩
        · simp [sources, Piece.source, h3, hbody]
        · simp only [List.all_cons, Piece.ok, hok, Bool.and_true, decide_eq_true_eq]
          exact (escapeChar_eq_some_iff d e).1 hd
    · obtain ⟨ps, rest, hbody, hok, hstop⟩ := exists_pieces terminator (d :: ds)
      refine ⟨.plain c :: ps, rest, ?_, ?_, hstop⟩
      · simp [sources, Piece.source, hbody]
      · simp [List.all_cons, Piece.ok, hok, h1, h2, h3]

/-- The values of a nonempty run of pieces are a nonempty token. -/
theorem values_ne_nil {ps : List Piece} (h : ps ≠ []) : values ps ≠ [] := by
  cases ps with
  | nil => exact absurd rfl h
  | cons p ps => simp [values]

/-- What `parseString` computes, in terms of the whitespace at the head of the
input and what follows it. -/
theorem parseString_eq (input : List Char) :
    parseString input =
      afterSpaces (input.dropWhile isspace) (input.takeWhile isspace).length := by
  unfold parseString
  rw [skipSpaces_eq]
  simp

/-- What `parseString` computes on whitespace followed by a text that does not
start with whitespace. -/
theorem parseString_append (ws r : List Char) (hws : ∀ c ∈ ws, isspace c = true)
    (hr : ∀ c ∈ r.head?, isspace c = false) :
    parseString (ws ++ r) = afterSpaces r ws.length := by
  have h1 : (ws ++ r).takeWhile isspace = ws := by
    induction ws with
    | nil =>
      cases r with
      | nil => rfl
      | cons c cs =>
        have := hr c (by simp)
        simp [List.takeWhile_cons, this]
    | cons a ws ih =>
      have ha := hws a (by simp)
      simp only [List.cons_append, List.takeWhile_cons, ha, if_true]
      rw [ih (fun c hc => hws c (by simp [hc]))]
  have h2 : (ws ++ r).dropWhile isspace = r := by
    have := List.takeWhile_append_dropWhile isspace (ws ++ r)
    rw [h1] at this
    exact List.append_cancel_left this
  rw [parseString_eq, h1, h2]

/-- What is left after the longest run of whitespace does not start with
whitespace. -/
theorem head_dropWhile_isspace :
    ∀ (l : List Char) (c : Char) (cs : List Char),
      l.dropWhile isspace = c :: cs → isspace c = false
  | [], _, _, h => by simp at h
  | a :: l, c, cs, h => by
    by_cases ha : isspace a = true
    · rw [List.dropWhile_cons_of_pos ha] at h
      exact head_dropWhile_isspace l c cs h
    · rw [List.dropWhile_cons_of_neg ha] at h
      cases h
      simpa using ha

/-- The shape of every call of `parseString`. With `r` what follows the leading
whitespace of the input: at the end of the string the call returns absent and
leaves the cursor; after an opening quote, and on a bare text, the loop goes
through a run of pieces and stops at the terminator, at the end of the string
or at an escape that is not listed, with the outcome and cursor given. -/
theorem parseString_shape (input : List Char) :
    (atNul (input.dropWhile isspace) = true ∧ parseString input = (.absent, 0)) ∨
    (∃ q ps rest, (q = SQUOTE ∨ q = DQUOTE) ∧
      input.dropWhile isspace = q :: (sources ps ++ rest) ∧
      ps.all (Piece.ok q) = true ∧
      ((rest.head? = some q ∧ parseString input =
          (.token (values ps), (input.takeWhile isspace).length + (sources ps).length + 2)) ∨
       (atNul rest = true ∧ parseString input =
          (.error, (input.takeWhile isspace).length + (sources ps).length + 1)) ∨
       (badEscape rest = true ∧ parseString input =
          (.error, (input.takeWhile isspace).length + (sources ps).length + 2)))) ∨
    (∃ ps rest, input.dropWhile isspace = sources ps ++ rest ∧
      (∃ c cs, input.dropWhile isspace = c :: cs ∧ isspace c = false ∧ c ≠ SQUOTE ∧
        c ≠ DQUOTE ∧ c ≠ NUL) ∧
      ps.all (Piece.ok ' ') = true ∧
      ((rest.head? = some ' ' ∧ ps ≠ [] ∧ parseString input =
          (.token (values ps), (input.takeWhile isspace).length + (sources ps).length + 1)) ∨
       (atNul rest = true ∧ ps ≠ [] ∧ parseString input =
          (.token (values ps), (input.takeWhile isspace).length + (sources ps).length)) ∨
       (badEscape rest = true ∧ parseString input =
          (.error, (input.takeWhile isspace).length + (sources ps).length + 1)))) := by
  rw [parseString_eq]
  generalize hi : (input.takeWhile isspace).length = i
  cases hr : input.dropWhile isspace with
  | nil => left; exact ⟨rfl, rfl⟩
  | cons c cs =>
    have hsp := head_dropWhile_isspace input c cs hr
    by_cases hnul : c = NUL
    · left
      exact ⟨by simp [atNul, hnul], by simp [afterSpaces, hnul]⟩
    by_cases hq : c = SQUOTE ∨ c = DQUOTE
    · right; left
      have hcb : c ≠ BACKSLASH := by rcases hq with rfl | rfl <;> decide
      have hcs : c ≠ ' ' := by rcases hq with rfl | rfl <;> decide
      obtain ⟨ps, rest, hbody, hok, hstop⟩ := exists_pieces c cs
      refine ⟨c, ps, rest, hq, by rw [hbody], hok, ?_⟩
      have hrun : afterSpaces (c :: cs) i =
          scanLoop c rest (i + 1 + (sources ps).length) (values ps) := by
        simp only [afterSpaces, if_neg hnul, if_pos hq]
        rw [hbody, scanLoop_sources c hcb ps rest (i + 1) [] hok]
        simp
      rw [hrun]
      rcases hstop with h | h | h
      · right; left
        refine ⟨h, ?_⟩
        rw [scanLoop_atNul c hnul rest _ _ h]
        simp only [atEnd, if_neg hcs]
        congr 1
        omega
      · left
        refine ⟨h, ?_⟩
        obtain ⟨rest', rfl⟩ : ∃ rest', rest = c :: rest' := by
          cases rest with
          | nil => simp at h
          | cons a rest' => simp at h; exact ⟨rest', by rw [h]⟩
        rw [scanLoop_terminator]
        congr 1
        omega
      · right; right
        refine ⟨h, ?_⟩
        rw [scanLoop_badEscape c hcb rest _ _ h]
        congr 1
        omega
    · right; right
      have hq1 : c ≠ SQUOTE := fun h => hq (Or.inl h)
      have hq2 : c ≠ DQUOTE := fun h => hq (Or.inr h)
      obtain ⟨ps, rest, hbody, hok, hstop⟩ := exists_pieces ' ' (c :: cs)
      refine ⟨ps, rest, hbody, ⟨c, cs, rfl, hsp, hq1, hq2, hnul⟩, hok, ?_⟩
      have hrun : afterSpaces (c :: cs) i =
          scanLoop ' ' rest (i + (sources ps).length) (values ps) := by
        simp only [afterSpaces, if_neg hnul, if_neg hq]
        rw [hbody, scanLoop_sources ' ' (by decide) ps rest i [] hok]
        simp
      have hne : badEscape rest = false → ps ≠ [] := by
        intro hb hps
        subst hps
        simp only [sources, List.nil_append] at hbody
        subst hbody
        rcases hstop with h | h | h
        · simp [atNul, hnul] at h
        · simp only [List.head?_cons, Option.some.injEq] at h
          subst h
          simp [isspace] at hsp
        · rw [hb] at h; cases h
      rw [hrun]
      rcases hstop with h | h | h
      · right; left
        have hb : badEscape rest = false := by
          cases rest with
          | nil => rfl
          | cons a rest' =>
            simp only [atNul, decide_eq_true_eq] at h
            subst h
            rfl
        refine ⟨h, hne hb, ?_⟩
        rw [scanLoop_atNul ' ' (by decide) rest _ _ h]
        simp [atEnd]
      · left
        obtain ⟨rest', rfl⟩ : ∃ rest', rest = ' ' :: rest' := by
          cases rest with
          | nil => simp at h
          | cons a rest' => simp at h; exact ⟨rest', by rw [h]⟩
        refine ⟨h, hne rfl, ?_⟩
        rw [scanLoop_terminator]
      · right; right
        refine ⟨h, ?_⟩
        rw [scanLoop_badEscape ' ' (by decide) rest _ _ h]

/-- The shape of every call that returns a token: leading whitespace `ws`, then
either a quote, a run of pieces and the same quote, or a bare run of pieces
that ends at a blank or at the end of the string; `rest` is the input from
where the loop stopped. The token is the values of the pieces, and the cursor
is as given. -/
theorem parseString_token_shape (input t : List Char) (n : Nat)
    (h : parseString input = (.token t, n)) :
    ∃ ws ps rest, (∀ c ∈ ws, isspace c = true) ∧ t = values ps ∧
      ((∃ q, (q = SQUOTE ∨ q = DQUOTE) ∧ ps.all (Piece.ok q) = true ∧
          input = ws ++ q :: (sources ps ++ rest) ∧ rest.head? = some q ∧
          n = ws.length + (sources ps).length + 2) ∨
       (ps.all (Piece.ok ' ') = true ∧ ps ≠ [] ∧ bareStart (sources ps ++ rest) = true ∧
          input = ws ++ (sources ps ++ rest) ∧
          ((rest.head? = some ' ' ∧ n = ws.length + (sources ps).length + 1) ∨
           (atNul rest = true ∧ n = ws.length + (sources ps).length)))) := by
  have hsplit := List.takeWhile_append_dropWhile isspace input
  have hws : ∀ c ∈ input.takeWhile isspace, isspace c = true :=
    fun c hc => List.mem_takeWhile_imp hc
  rcases parseString_shape input with ⟨_, h0⟩ | ⟨q, ps, rest, hq, hr, hok, hcase⟩ |
    ⟨ps, rest, hr, ⟨c, cs, hc, hsp, hq1, hq2, hnul⟩, hok, hcase⟩
  · rw [h0] at h; cases h
  · rcases hcase with ⟨hhead, h0⟩ | ⟨_, h0⟩ | ⟨_, h0⟩
    · rw [h0] at h
      cases h
      refine ⟨_, ps, rest, hws, rfl, Or.inl ⟨q, hq, hok, ?_, hhead, rfl⟩⟩
      rw [← hr, hsplit]
    · rw [h0] at h; cases h
    · rw [h0] at h; cases h
  · have hstart : bareStart (sources ps ++ rest) = true := by
      rw [← hr, hc]
      simp [bareStart, hsp, hq1, hq2, hnul]
    have hin : input = input.takeWhile isspace ++ (sources ps ++ rest) := by
      rw [← hr, hsplit]
    rcases hcase with ⟨hhead, hne, h0⟩ | ⟨hend, hne, h0⟩ | ⟨_, h0⟩
    · rw [h0] at h
      cases h
      exact ⟨_, ps, rest, hws, rfl, Or.inr ⟨hok, hne, hstart, hin, Or.inl ⟨hhead, rfl⟩⟩⟩
    · rw [h0] at h
      cases h
      exact ⟨_, ps, rest, hws, rfl, Or.inr ⟨hok, hne, hstart, hin, Or.inr ⟨hend, rfl⟩⟩⟩
    · rw [h0] at h; cases h

/-- A call on whitespace, an opening quote and a run of pieces goes on from
where the pieces end. -/
theorem parseString_quoted_run (ws : List Char) (q : Char) (ps : List Piece) (rest : List Char)
    (hws : ∀ c ∈ ws, isspace c = true) (hq : q = SQUOTE ∨ q = DQUOTE)
    (hps : ps.all (Piece.ok q) = true) :
    parseString (ws ++ q :: (sources ps ++ rest)) =
      scanLoop q rest (ws.length + 1 + (sources ps).length) (values ps) := by
  have hsp : isspace q = false := by rcases hq with rfl | rfl <;> decide
  have hnul : q ≠ NUL := by rcases hq with rfl | rfl <;> decide
  have hb : q ≠ BACKSLASH := by rcases hq with rfl | rfl <;> decide
  rw [parseString_append ws _ hws (by simpa using hsp)]
  simp only [afterSpaces, if_neg hnul, if_pos hq]
  rw [scanLoop_sources q hb ps rest _ [] hps]
  simp

/-- A call on whitespace and a bare run of pieces goes on from where the pieces
end. -/
theorem parseString_bare_run (ws : List Char) (ps : List Piece) (rest : List Char)
    (hws : ∀ c ∈ ws, isspace c = true) (hps : ps.all (Piece.ok ' ') = true)
    (hstart : bareStart (sources ps ++ rest) = true) :
    parseString (ws ++ (sources ps ++ rest)) =
      scanLoop ' ' rest (ws.length + (sources ps).length) (values ps) := by
  cases hbody : sources ps ++ rest with
  | nil => rw [hbody] at hstart; cases hstart
  | cons c cs =>
    rw [hbody] at hstart
    simp only [bareStart, Bool.and_eq_true, Bool.not_eq_true', decide_eq_true_eq] at hstart
    obtain ⟨⟨⟨hsp, hq1⟩, hq2⟩, hnul⟩ := hstart
    rw [parseString_append ws _ hws (by simpa using hsp)]
    have hq : ¬ (c = SQUOTE ∨ c = DQUOTE) := by
      rintro (h | h)
      · exact hq1 h
      · exact hq2 h
    simp only [afterSpaces, if_neg hnul, if_neg hq]
    rw [← hbody, scanLoop_sources ' ' (by decide) ps rest _ [] hps]
    simp

/-- The text of a run of plain pieces is the text itself. -/
theorem sources_plains : ∀ (v : List Char), sources (plains v) = v
  | [] => rfl
  | c :: v => by
    show c :: sources (plains v) = c :: v
    rw [sources_plains v]

/-- The token of a run of plain pieces is the text itself. -/
theorem values_plains (v : List Char) : values (plains v) = v := by
  simp [values, plains, Function.comp_def, Piece.value]

/-- A run of plain pieces can stand before the terminator when none of its
characters is the terminator, a backslash or NUL. -/
theorem plains_ok (terminator : Char) (v : List Char)
    (h : ∀ c ∈ v, c ≠ terminator ∧ c ≠ BACKSLASH ∧ c ≠ NUL) :
    (plains v).all (Piece.ok terminator) = true := by
  induction v with
  | nil => rfl
  | cons c v ih =>
    have hc := h c (by simp)
    have hv := ih fun a ha => h a (by simp [ha])
    simp only [plains] at hv
    simp [plains, Piece.ok, hc.1, hc.2.1, hc.2.2, hv]

/-! ## Lists in order -/

section OrderedLists

variable {α : Type}

/-- On a list whose elements are pairwise related by `r`, a predicate that is
inherited backwards along `r` holds on a prefix: the longest prefix on which
it holds is all of the elements on which it holds. -/
theorem takeWhile_eq_filter_of_pairwise (r : α → α → Prop) (p : α → Bool) :
    ∀ (l : List α), l.Pairwise r → (∀ a b, r a b → p b = true → p a = true) →
      l.takeWhile p = l.filter p
  | [], _, _ => rfl
  | a :: l, hl, hp => by
    rw [List.pairwise_cons] at hl
    by_cases ha : p a = true
    · rw [List.takeWhile_cons_of_pos ha, List.filter_cons_of_pos ha,
        takeWhile_eq_filter_of_pairwise r p l hl.2 hp]
    · rw [List.takeWhile_cons_of_neg ha, List.filter_cons_of_neg ha]
      symm
      rw [List.filter_eq_nil_iff]
      intro b hb hpb
      exact ha (hp a b (hl.1 b hb) hpb)

/-- The last element of a strictly ascending list is its largest. -/
theorem le_of_mem_of_getLast? [LinearOrder α] :
    ∀ (l : List α) (m : α), l.Pairwise (· < ·) → l.getLast? = some m → ∀ a ∈ l, a ≤ m := by
  intro l m hl hm a ha
  obtain ⟨l', rfl⟩ : ∃ l', l = l' ++ [m] := by
    rcases List.eq_nil_or_concat l with h | ⟨l', b, h⟩
    · subst h; simp at ha
    · subst h
      rw [List.concat_eq_append, List.getLast?_concat, Option.some.injEq] at hm
      exact ⟨l', by rw [hm]; simp⟩
  rw [List.pairwise_append] at hl
  rcases List.mem_append.1 ha with h | h
  · exact le_of_lt (hl.2.2 a h m (by simp))
  · simp at h; exact le_of_eq h

end OrderedLists

/-! ## The cursor -/

section Cursor

variable {K : Type} [LinearOrder K]

/-- A seek that finds nothing: every key is before the target. -/
theorem firstAtLeast_none (s : K) :
    ∀ (ks : List K) (i : Nat), Iterator.firstAtLeast s ks i = none → ∀ x ∈ ks, x < s
  | [], _, _ => by simp
  | k :: ks, i, h => by
    unfold Iterator.firstAtLeast at h
    split at h
    · cases h
    · rename_i hk
      intro x hx
      rcases List.mem_cons.1 hx with rfl | hx
      · exact lt_of_not_le hk
      · exact firstAtLeast_none s ks (i + 1) h x hx

/-- A seek that finds a key: the keys split into those before the target and
the rest, which starts with the key found. -/
theorem firstAtLeast_some (s : K) :
    ∀ (ks : List K) (i j : Nat), Iterator.firstAtLeast s ks i = some j →
      ∃ pre k post, ks = pre ++ k :: post ∧ j = i + pre.length ∧ (∀ x ∈ pre, x < s) ∧ s ≤ k
  | [], _, _, h => by simp [Iterator.firstAtLeast] at h
  | k :: ks, i, j, h => by
    unfold Iterator.firstAtLeast at h
    split at h
    · rename_i hk
      refine ⟨[], k, ks, rfl, ?_, by simp, hk⟩
      simpa using (Option.some.inj h).symm
    · rename_i hk
      obtain ⟨pre, k', post, rfl, hj, hpre, hk'⟩ := firstAtLeast_some s ks (i + 1) j h
      refine ⟨k :: pre, k', post, rfl, ?_, ?_, hk'⟩
      · simp only [List.length_cons]; omega
      · intro x hx
        rcases List.mem_cons.1 hx with rfl | hx
        · exact lt_of_not_le hk
        · exact hpre x hx

/-- The loop of `list`, started on the key of index `i` with enough fuel, prints
the keys from there on up to the first one that is past the end bound. -/
theorem listLoop_from (e : Option K) (ks : List K) :
    ∀ (fuel i : Nat), i ≤ ks.length → ks.length < fuel + i →
      listLoop e fuel ⟨ks, some i⟩ = some ((ks.drop i).takeWhile fun k => !pastEnd e k)
  | 0, i, h1, h2 => by omega
  | fuel + 1, i, h1, h2 => by
    unfold listLoop
    by_cases hi : i < ks.length
    · have hk : (Iterator.mk ks (some i)).key? = some (ks.get ⟨i, hi⟩) := by
        simp [Iterator.key?, List.getElem?_eq_getElem hi]
      rw [hk, List.drop_eq_getElem_cons hi]
      simp only [List.get_eq_getElem]
      by_cases hp : pastEnd e ks[i] = true
      · rw [List.takeWhile_cons_of_neg (by simp [hp])]
        simp [hp]
      · have := listLoop_from e ks fuel (i + 1) (by omega) (by omega)
        simp only [Iterator.Next, Option.map_some'] at this ⊢
        rw [List.takeWhile_cons_of_pos (by simp [hp]), this]
        simp [hp]
    · have hk : (Iterator.mk ks (some i)).key? = none := by
        simp [Iterator.key?]; omega
      rw [hk, List.drop_of_length_le (by omega)]
      rfl

/-- The loop of `rlist`, started on the key of index `i` with enough fuel, prints
the keys from there back down to the first one that is before the end bound. -/
theorem rlistLoop_from (e : Option K) (ks : List K) :
    ∀ (i fuel : Nat), i < ks.length → i + 1 < fuel →
      rlistLoop e fuel ⟨ks, some i⟩ =
        some ((ks.take (i + 1)).reverse.takeWhile fun k => !beforeEnd e k)
  | _, 0, _, h2 => by omega
  | i, fuel + 1, h1, h2 => by
    unfold rlistLoop
    have hk : (Iterator.mk ks (some i)).key? = some ks[i] := by
      simp [Iterator.key?, List.getElem?_eq_getElem h1]
    have ht : (ks.take (i + 1)).reverse = ks[i] :: (ks.take i).reverse := by
      rw [List.take_succ, List.getElem?_eq_getElem h1]; simp
    rw [hk, ht]
    by_cases hp : beforeEnd e ks[i] = true
    · simp [hp]
    · cases i with
      | zero =>
        have : rlistLoop e fuel (Iterator.mk ks (some 0)).Prev = some [] := by
          obtain ⟨f, rfl⟩ : ∃ f, fuel = f + 1 := ⟨fuel - 1, by omega⟩
          unfold rlistLoop
          simp [Iterator.Prev, Iterator.key?]
        simp [hp, this]
      | succ n =>
        have := rlistLoop_from e ks n fuel (by omega) (by omega)
        simp only [Iterator.Prev] at this ⊢
        simp [hp, this]

/-- The keys that are not past the end bound of `list` form a prefix of the
keys in order. -/
theorem takeWhile_not_pastEnd (e : Option K) (l : List K) (hl : l.Pairwise (· < ·)) :
    (l.takeWhile fun k => !pastEnd e k) = l.filter fun k => inRange none e k := by
  rw [takeWhile_eq_filter_of_pairwise (· < ·) _ l hl]
  · congr 1
    funext k
    cases e <;> simp [pastEnd, inRange, ← not_le]
  · intro a b hab
    cases e with
    | none => simp [pastEnd]
    | some b' =>
      simp only [pastEnd, Bool.not_eq_true', decide_eq_false_iff_not, not_lt]
      exact fun h => le_trans (le_of_lt hab) h

/-- The keys that are not before the end bound of `rlist` form a prefix of the
keys in descending order. -/
theorem takeWhile_not_beforeEnd (e : Option K) (l : List K) (hl : l.Pairwise (· < ·)) :
    (l.reverse.takeWhile fun k => !beforeEnd e k) =
      (l.filter fun k => inRange e none k).reverse := by
  rw [takeWhile_eq_filter_of_pairwise (fun a b => b < a) _ l.reverse
    (List.pairwise_reverse.2 hl), List.filter_reverse]
  · congr 2
    funext k
    cases e <;> simp [beforeEnd, inRange, ← not_le]
  · intro a b hab
    cases e with
    | none => simp [beforeEnd]
    | some b' =>
      simp only [beforeEnd, Bool.not_eq_true', decide_eq_false_iff_not, not_lt]
      exact fun h => le_trans h (le_of_lt hab)

/-- Filtering by a range is filtering by its lower bound, then by its upper
bound. -/
theorem filter_inRange (lo hi : Option K) (l : List K) :
    (l.filter fun k => inRange lo hi k) =
      (l.filter fun k => inRange lo none k).filter fun k => inRange none hi k := by
  rw [List.filter_filter]
  congr 1
  funext k
  cases lo <;> cases hi <;> simp [inRange, Bool.and_comm]

/-- Filtering by a range is filtering by its upper bound, then by its lower
bound. -/
theorem filter_inRange_comm (lo hi : Option K) (l : List K) :
    (l.filter fun k => inRange lo hi k) =
      (l.filter fun k => inRange none hi k).filter fun k => inRange lo none k := by
  rw [List.filter_filter]
  congr 1
  funext k
  cases lo <;> cases hi <;> simp [inRange]

/-- The loops end at once on a cursor that is not valid. -/
theorem listLoop_invalid (e : Option K) (ks : List K) (fuel : Nat) :
    listLoop e (fuel + 1) ⟨ks, none⟩ = some [] := by
  simp [listLoop, Iterator.key?]

/-- The scan of `list` over keys in ascending order prints the keys of the
range, in that order. -/
theorem listScan_eq (ks : List K) (hks : ks.Pairwise (· < ·)) (p : Option Nat)
    (start e : Option K) :
    listLoop e (ks.length + 1) (listSeek ⟨ks, p⟩ start) =
      some (ks.filter fun k => inRange start e k) := by
  rw [filter_inRange]
  cases start with
  | none =>
    simp only [listSeek, Iterator.SeekToFirst]
    rw [listLoop_from e ks _ 0 (by omega) (by omega), List.drop_zero,
      takeWhile_not_pastEnd e ks hks]
    simp [inRange]
  | some s =>
    simp only [listSeek, Iterator.Seek]
    cases h : Iterator.firstAtLeast s ks 0 with
    | none =>
      have hall := firstAtLeast_none s ks 0 h
      rw [listLoop_invalid]
      have : (ks.filter fun k => inRange (some s) none k) = [] := by
        rw [List.filter_eq_nil_iff]
        intro a ha
        simpa [inRange] using hall a ha
      rw [this]; rfl
    | some j =>
      obtain ⟨pre, k, post, rfl, hj, hpre, hk⟩ := firstAtLeast_some s ks 0 j h
      have hsplit := List.pairwise_append.1 hks
      have htail : ((pre ++ k :: post).filter fun x => inRange (some s) none x) = k :: post := by
        rw [List.filter_append]
        have h1 : (pre.filter fun x => inRange (some s) none x) = [] := by
          rw [List.filter_eq_nil_iff]
          intro a ha
          simpa [inRange] using hpre a ha
        have h2 : ((k :: post).filter fun x => inRange (some s) none x) = k :: post := by
          rw [List.filter_eq_self]
          intro a ha
          rcases List.mem_cons.1 ha with rfl | ha
          · simpa [inRange] using hk
          · simpa [inRange] using
              le_trans hk (le_of_lt ((List.pairwise_cons.1 hsplit.2.1).1 a ha))
        rw [h1, h2]; rfl
      rw [listLoop_from e _ _ j (by simp at hj ⊢; omega) (by simp at hj ⊢; omega), htail]
      have hd : (pre ++ k :: post).drop j = k :: post := by
        have : j = pre.length := by omega
        rw [this, List.drop_left]
      rw [hd, takeWhile_not_pastEnd e _ hsplit.2.1]

/-- The last key, on which `SeekToLast` leaves the cursor, closes the whole list
of keys. -/
theorem seekToLast_spec {α : Type} (ks : List α) (p : Option Nat) :
    ((Iterator.mk ks p).SeekToLast = ⟨ks, none⟩ ∧ ks = []) ∨
      ∃ i, (Iterator.mk ks p).SeekToLast = ⟨ks, some i⟩ ∧ i < ks.length ∧ ks.take (i + 1) = ks := by
  by_cases h : ks.length = 0
  · left
    exact ⟨by simp [Iterator.SeekToLast, h], List.length_eq_zero.1 h⟩
  · right
    refine ⟨ks.length - 1, by simp [Iterator.SeekToLast, h], by omega, ?_⟩
    rw [List.take_of_length_le (by omega)]

/-- Where the seek adjustment of `rlist` leaves the cursor: on the last of the
keys at or before the start bound, or nowhere when there is no such key. -/
theorem rlistSeek_spec (ks : List K) (hks : ks.Pairwise (· < ·)) (p : Option Nat)
    (start : Option K) :
    (rlistSeek ⟨ks, p⟩ start = ⟨ks, none⟩ ∧ (ks.filter fun k => inRange none start k) = []) ∨
      ∃ i, rlistSeek ⟨ks, p⟩ start = ⟨ks, some i⟩ ∧ i < ks.length ∧
        ks.take (i + 1) = ks.filter fun k => inRange none start k := by
  cases start with
  | none =>
    simp only [rlistSeek]
    rcases seekToLast_spec ks p with ⟨h1, h2⟩ | ⟨i, h1, h2, h3⟩
    · left; exact ⟨h1, by simp [h2]⟩
    · right; exact ⟨i, h1, h2, by rw [h3]; simp [inRange]⟩
  | some s =>
    simp only [rlistSeek, Iterator.Seek]
    cases h : Iterator.firstAtLeast s ks 0 with
    | none =>
      have hall := firstAtLeast_none s ks 0 h
      have hf : (ks.filter fun k => inRange none (some s) k) = ks := by
        rw [List.filter_eq_self]
        intro a ha
        simpa [inRange] using le_of_lt (hall a ha)
      simp only [Iterator.key?, Option.bind]
      rcases seekToLast_spec ks none with ⟨h1, h2⟩ | ⟨i, h1, h2, h3⟩
      · left; exact ⟨h1, by rw [hf]; exact h2⟩
      · right; exact ⟨i, h1, h2, by rw [hf]; exact h3⟩
    | some j =>
      obtain ⟨pre, k, post, rfl, hj, hpre, hk⟩ := firstAtLeast_some s ks 0 j h
      have hj' : j = pre.length := by omega
      subst hj'
      have hsplit := List.pairwise_append.1 hks
      have hkey : (Iterator.mk (pre ++ k :: post) (some pre.length)).key? = some k := by
        simp only [Iterator.key?, Option.bind]
        rw [List.getElem?_append_right (le_refl _)]
        simp
      have hpost : (post.filter fun x => inRange none (some s) x) = [] := by
        rw [List.filter_eq_nil_iff]
        intro a ha
        have : s < a := lt_of_le_of_lt hk ((List.pairwise_cons.1 hsplit.2.1).1 a ha)
        simpa [inRange] using this
      have hpref : (pre.filter fun x => inRange none (some s) x) = pre := by
        rw [List.filter_eq_self]
        intro a ha
        simpa [inRange] using le_of_lt (hpre a ha)
      rw [hkey]
      simp only
      by_cases hsk : s < k
      · rw [if_pos hsk]
        have hf : ((pre ++ k :: post).filter fun x => inRange none (some s) x) = pre := by
          rw [List.filter_append, hpref, List.filter_cons_of_neg (by simpa [inRange] using hsk),
            hpost, List.append_nil]
        rw [hf]
        rcases List.eq_nil_or_concat pre with hp | ⟨pre', a, hp⟩
        · subst hp
          left
          exact ⟨by simp [Iterator.Prev], rfl⟩
        · subst hp
          right
          refine ⟨pre'.length, by simp [Iterator.Prev], by simp, ?_⟩
          have : pre'.length + 1 = (pre'.concat a).length := by simp
          rw [this, List.take_left]
      · rw [if_neg hsk]
        have hf : ((pre ++ k :: post).filter fun x => inRange none (some s) x) = pre ++ [k] := by
          rw [List.filter_append, hpref,
            List.filter_cons_of_pos (by simpa [inRange] using not_lt.1 hsk), hpost]
        rw [hf]
        right
        refine ⟨pre.length, rfl, by simp, ?_⟩
        have : pre ++ k :: post = (pre ++ [k]) ++ post := by simp
        rw [this]
        have : pre.length + 1 = (pre ++ [k]).length := by simp
        rw [this, List.take_left]

/-- The scan of `rlist` over keys in ascending order prints the keys between
its second argument and its first, in descending order. -/
theorem rlistScan_eq (ks : List K) (hks : ks.Pairwise (· < ·)) (p : Option Nat)
    (start e : Option K) :
    rlistLoop e (ks.length + 1) (rlistSeek ⟨ks, p⟩ start) =
      some (ks.filter fun k => inRange e start k).reverse := by
  rw [filter_inRange_comm]
  have hsorted : (ks.filter fun k => inRange none start k).Pairwise (· < ·) :=
    hks.sublist (List.filter_sublist ks)
  rw [← takeWhile_not_beforeEnd e _ hsorted]
  rcases rlistSeek_spec ks hks p start with ⟨h1, h2⟩ | ⟨i, h1, h2, h3⟩
  · rw [h1, h2]
    simp [rlistLoop, Iterator.key?]
  · rw [h1, rlistLoop_from e ks i _ h2 (by omega), h3]

end Cursor

/-! ## The range scans: claims -/

/-- C1, as stated, fails: over the keys a, b, c, d the arguments `b c` are two
present bounds, `list b c` prints b, c and `rlist b c` prints nothing, which
is not the reverse of b, c. -/
theorem rlist_same_args_not_reverse :
    parseBounds " b c".toList = (some "b".toList, some "c".toList) ∧
      list abcd " b c".toList = some ["b".toList, "c".toList] ∧
      rlist abcd " b c".toList = some [] ∧
      rlist abcd " b c".toList ≠ (list abcd " b c".toList).map List.reverse := by
  decide

/-- C1, amended: for every store with its keys in ascending order and every
pair of present bounds `s` and `e`, the keys printed by `rlist e s` (the upper
bound first) are the exact reverse of the keys printed by `list s e`, hence the
same keys with the same multiplicities. -/
theorem rlist_swapped_eq_reverse_list (db : DB) (hdb : db.WF) (args args' : List Char)
    (s e : Key) (hargs : parseBounds args = (some s, some e))
    (hargs' : parseBounds args' = (some e, some s)) :
    ∃ out, list db args = some out ∧ rlist db args' = some out.reverse ∧
      out.reverse.Perm out := by
  refine ⟨db.keys.filter fun k => inRange (some s) (some e) k, ?_, ?_, List.reverse_perm _⟩
  · unfold list DB.NewIterator
    rw [hargs]
    exact listScan_eq db.keys hdb none (some s) (some e)
  · unfold rlist DB.NewIterator
    rw [hargs']
    exact rlistScan_eq db.keys hdb none (some e) (some s)

/-- C1, amended, on the keys a, b, c, d: `list b c` prints b, c and `rlist c b`
prints c, b. -/
theorem rlist_swapped_eq_reverse_list_witness :
    abcd.WF ∧ list abcd " b c".toList = some ["b".toList, "c".toList] ∧
      rlist abcd " c b".toList = some ["c".toList, "b".toList] := by
  have hwf : abcd.WF := by unfold DB.WF; decide
  obtain ⟨out, h1, h2, _⟩ := rlist_swapped_eq_reverse_list abcd hwf " b c".toList
    " c b".toList "b".toList "c".toList (by decide) (by decide)
  have hout : out = ["b".toList, "c".toList] := by
    have : list abcd " b c".toList = some ["b".toList, "c".toList] := by decide
    rw [h1] at this
    exact Option.some.inj this
  subst hout
  exact ⟨hwf, h1, h2⟩

/-- C2: for every store with its keys in ascending order and every argument
text, with `start` and `e` the two optional tokens read from it, `list` ends
and prints exactly the stored keys `k` with `start ≤ k` (when `start` is
present) and `k ≤ e` (when `e` is present), each once, in ascending order. -/
theorem list_prints_range (db : DB) (hdb : db.WF) (args : List Char) (start e : Option Key)
    (hargs : parseBounds args = (start, e)) :
    ∃ out, list db args = some out ∧
      out = (db.keys.filter fun k => inRange start e k) ∧
      out.Sorted (· < ·) ∧
      ∀ k, k ∈ out ↔
        k ∈ db.keys ∧ (∀ s, start = some s → s ≤ k) ∧ (∀ b, e = some b → k ≤ b) := by
  refine ⟨_, ?_, rfl, hdb.sublist (List.filter_sublist _), ?_⟩
  · unfold list DB.NewIterator
    rw [hargs]
    exact listScan_eq db.keys hdb none start e
  · intro k
    cases start <;> cases e <;> simp [inRange]

/-- C2 on the keys a, b, c, d: `list` with no bounds prints a, b, c, d and
`list b c` prints b, c. -/
theorem list_prints_range_witness :
    abcd.WF ∧ list abcd [] = some ["a".toList, "b".toList, "c".toList, "d".toList] ∧
      list abcd " b c".toList = some ["b".toList, "c".toList] := by
  have hwf : abcd.WF := by unfold DB.WF; decide
  obtain ⟨o1, h1, e1, _⟩ := list_prints_range abcd hwf [] none none (by decide)
  obtain ⟨o2, h2, e2, _⟩ := list_prints_range abcd hwf " b c".toList (some "b".toList)
    (some "c".toList) (by decide)
  refine ⟨hwf, ?_, ?_⟩
  · rw [h1, e1]; decide
  · rw [h2, e2]; decide

/-- C3: for every store with its keys in ascending order and every present
start token `x`, the seek adjustment of `rlist` leaves the cursor on the
largest stored key that is at most `x`, and invalid when no stored key is at
most `x`; when `lo` and `hi` are adjacent stored keys with `lo < x < hi`, the
cursor is left on `lo`. -/
theorem rlistSeek_largest_le (db : DB) (hdb : db.WF) (x : Key) :
    (rlistSeek db.NewIterator (some x)).keys = db.keys ∧
      (match (rlistSeek db.NewIterator (some x)).key? with
        | some k => k ∈ db.keys ∧ k ≤ x ∧ ∀ k' ∈ db.keys, k' ≤ x → k' ≤ k
        | none => ∀ k' ∈ db.keys, ¬ k' ≤ x) ∧
      ∀ pre lo hi post, db.keys = pre ++ lo :: hi :: post → lo < x → x < hi →
        (rlistSeek db.NewIterator (some x)).key? = some lo := by
  have hks : db.keys.Pairwise (· < ·) := hdb
  have main : (rlistSeek db.NewIterator (some x)).keys = db.keys ∧
      (match (rlistSeek db.NewIterator (some x)).key? with
        | some k => k ∈ db.keys ∧ k ≤ x ∧ ∀ k' ∈ db.keys, k' ≤ x → k' ≤ k
        | none => ∀ k' ∈ db.keys, ¬ k' ≤ x) := by
    unfold DB.NewIterator
    rcases rlistSeek_spec db.keys hks none (some x) with ⟨h1, h2⟩ | ⟨i, h1, h2, h3⟩
    · rw [h1]
      refine ⟨rfl, ?_⟩
      simp only [Iterator.key?, Option.bind]
      intro k' hk' hle
      have := (List.filter_eq_nil_iff.1 h2) k' hk'
      simp [inRange, hle] at this
    · rw [h1]
      refine ⟨rfl, ?_⟩
      have hkey : (Iterator.mk db.keys (some i)).key? = some db.keys[i] := by
        simp [Iterator.key?, List.getElem?_eq_getElem h2]
      have hlast : (db.keys.filter fun k => inRange none (some x) k).getLast? =
          some db.keys[i] := by
        rw [← h3, List.take_succ, List.getElem?_eq_getElem h2]
        exact List.getLast?_concat _
      rw [hkey]
      have hmem : db.keys[i] ∈ db.keys.filter fun k => inRange none (some x) k :=
        List.mem_of_getLast?_eq_some hlast
      refine ⟨List.getElem_mem h2, by simpa [inRange] using (List.mem_filter.1 hmem).2, ?_⟩
      intro k' hk' hle
      exact le_of_mem_of_getLast? _ _ (hks.sublist (List.filter_sublist _)) hlast k'
        (List.mem_filter.2 ⟨hk', by simpa [inRange] using hle⟩)
  refine ⟨main.1, main.2, ?_⟩
  intro pre lo hi post hsplit hlo hhi
  have hmain := main.2
  rw [hsplit] at hks
  have hlomem : lo ∈ db.keys := by rw [hsplit]; simp
  cases hkey : (rlistSeek db.NewIterator (some x)).key? with
  | none =>
    rw [hkey] at hmain
    exact absurd (le_of_lt hlo) (hmain lo hlomem)
  | some k =>
    rw [hkey] at hmain
    obtain ⟨hk, hkx, hmax⟩ := hmain
    have hlok : lo ≤ k := hmax lo hlomem (le_of_lt hlo)
    rw [hsplit] at hk
    rw [List.pairwise_append, List.pairwise_cons, List.pairwise_cons] at hks
    rcases List.mem_append.1 hk with h | h
    · exact absurd (hks.2.2 k h lo (by simp)) (not_lt.2 hlok)
    · rcases List.mem_cons.1 h with h | h
      · rw [h]
      · rcases List.mem_cons.1 h with h | h
        · rw [h] at hkx
          exact absurd hhi (not_lt.2 hkx)
        · exact absurd (lt_of_lt_of_le (hks.2.1.2.1 k h) hkx) (not_lt.2 (le_of_lt hhi))

/-- C3 on the keys a, b, c, d: the start token `bb` is not stored and lies
between the adjacent keys b and c; the cursor is left on b. -/
theorem rlistSeek_largest_le_witness :
    abcd.WF ∧ (rlistSeek abcd.NewIterator (some "bb".toList)).key? = some "b".toList := by
  have hwf : abcd.WF := by unfold DB.WF; decide
  exact ⟨hwf, (rlistSeek_largest_le abcd hwf "bb".toList).2.2 ["a".toList] "b".toList
    "c".toList ["d".toList] (by decide) (by decide) (by decide)⟩

/-! ## The tokenizer: claims -/

/-- One call on a written argument, after at most some blanks and before the
end of the line or a blank: the token is the value of the argument, and the
cursor is left at the end of the line, on the text after the blank, or on the
blank. -/
theorem parseString_written (pad : List Char) (w : Written) (tail : List Char)
    (hpad : ∀ c ∈ pad, isspace c = true) (hw : w.ok = true)
    (htail : tail = [] ∨ ∃ more, tail = ' ' :: more) :
    ∃ n, parseString (pad ++ (w.text ++ tail)) = (.token w.value, n) ∧
      (tail = [] → (pad ++ (w.text ++ tail)).drop n = []) ∧
      ∀ more, tail = ' ' :: more →
        (pad ++ (w.text ++ tail)).drop n = more ∨
          (pad ++ (w.text ++ tail)).drop n = ' ' :: more := by
  cases w with
  | bare v =>
    simp only [Written.ok, Bool.and_eq_true, Bool.not_eq_true', List.all_eq_true,
      decide_eq_true_eq] at hw
    obtain ⟨hne, hall⟩ := hw
    have hps : (plains v).all (Piece.ok ' ') = true := by
      apply plains_ok
      intro c hc
      have := hall c hc
      refine ⟨?_, this.1.2, this.2⟩
      rintro rfl
      have h := this.1.1.1.1
      simp [isspace] at h
    have hstart : bareStart (sources (plains v) ++ tail) = true := by
      rw [sources_plains]
      cases v with
      | nil => simp at hne
      | cons c cs =>
        have := hall c (by simp)
        simp [bareStart, this.1.1.1.1, this.1.1.1.2, this.1.1.2, this.2]
    have hrun := parseString_bare_run pad (plains v) tail hpad hps hstart
    rw [sources_plains, values_plains] at hrun
    simp only [Written.text, Written.value]
    cases tail with
    | nil =>
      refine ⟨pad.length + v.length, ?_, ?_, ?_⟩
      · rw [hrun, scanLoop_nil]; rfl
      · intro _
        rw [List.drop_of_length_le (by simp)]
      · intro more h; cases h
    | cons a more =>
      by_cases ha : a = ' '
      · subst ha
        refine ⟨pad.length + v.length + 1, ?_, ?_, ?_⟩
        · rw [hrun, scanLoop_terminator]
        · intro h; cases h
        · intro more' h
          cases h
          left
          have : pad ++ (v ++ ' ' :: more) = (pad ++ v ++ [' ']) ++ more := by simp
          rw [this]
          have hl : pad.length + v.length + 1 = (pad ++ v ++ [' ']).length := by
            simp only [List.length_append, List.length_singleton]
          rw [hl, List.drop_left]
      · rcases htail with h | ⟨more', h⟩
        · cases h
        · cases h
          exact absurd rfl ha
  | quoted q v =>
    simp only [Written.ok, Bool.and_eq_true, Bool.or_eq_true, List.all_eq_true,
      decide_eq_true_eq] at hw
    obtain ⟨hq, hall⟩ := hw
    have hps : (plains v).all (Piece.ok q) = true :=
      plains_ok q v fun c hc => by simpa [and_assoc] using hall c hc
    have hrun := parseString_quoted_run pad q (plains v) (q :: tail) hpad hq hps
    rw [sources_plains, values_plains, scanLoop_terminator] at hrun
    simp only [Written.text, Written.value]
    have htext : pad ++ (q :: (v ++ [q]) ++ tail) = pad ++ q :: (v ++ q :: tail) := by simp
    have hdrop : (pad ++ q :: (v ++ q :: tail)).drop (pad.length + 1 + v.length + 1) = tail := by
      have : pad ++ q :: (v ++ q :: tail) = (pad ++ q :: (v ++ [q])) ++ tail := by simp
      rw [this]
      have hl : pad.length + 1 + v.length + 1 = (pad ++ q :: (v ++ [q])).length := by
        simp only [List.length_append, List.length_cons, List.length_singleton, List.length_nil]
        omega
      rw [hl, List.drop_left]
    rw [htext]
    refine ⟨pad.length + 1 + v.length + 1, hrun, ?_, ?_⟩
    · intro h
      rw [hdrop, h]
    · intro more h
      right
      rw [hdrop, h]

/-- One more call of the tokenizer. -/
theorem parseMany_succ (n : Nat) (input : List Char) :
    parseMany (n + 1) input =
      (parseString input).1 :: parseMany n (input.drop (parseString input).2) := rfl

/-- The round trip of written arguments, also when the line starts with a
blank. -/
theorem roundTrip_padded :
    ∀ (ws : List Written), ws.all Written.ok = true → ∀ (pad : List Char),
      pad = [] ∨ pad = [' '] →
      parseMany (ws.length + 1) (pad ++ joinLine ws) =
        ws.map (fun w => Outcome.token w.value) ++ [Outcome.absent]
  | [], _, pad, hpad => by
    rcases hpad with rfl | rfl <;> decide
  | [w], hok, pad, hpad => by
    have hpad' : ∀ c ∈ pad, isspace c = true := by
      rcases hpad with rfl | rfl <;> simp [isspace]
    simp only [List.all_cons, List.all_nil, Bool.and_true] at hok
    obtain ⟨n, hparse, hend, _⟩ := parseString_written pad w [] hpad' hok (Or.inl rfl)
    rw [List.append_nil] at hparse hend
    simp only [joinLine, List.length_singleton, List.map_cons, List.map_nil]
    rw [parseMany_succ, hparse]
    simp only
    rw [hend rfl]
    rfl
  | w :: w' :: ws, hok, pad, hpad => by
    have hpad' : ∀ c ∈ pad, isspace c = true := by
      rcases hpad with rfl | rfl <;> simp [isspace]
    rw [List.all_cons, Bool.and_eq_true] at hok
    obtain ⟨n, hparse, _, hnext⟩ :=
      parseString_written pad w (' ' :: joinLine (w' :: ws)) hpad' hok.1 (Or.inr ⟨_, rfl⟩)
    have ih := roundTrip_padded (w' :: ws) hok.2
    simp only [joinLine, List.length_cons, List.map_cons]
    rw [parseMany_succ, hparse]
    simp only [List.cons_append, List.cons.injEq, true_and]
    rcases hnext _ rfl with h | h
    · rw [h]
      exact ih [] (Or.inl rfl)
    · rw [h]
      exact ih [' '] (Or.inr rfl)

/-- C4: for every list of arguments, each written bare (not empty, without
whitespace, quote or backslash) or between two identical quotes that do not
occur in it (without backslash, whitespace allowed), joined by single spaces,
calling the tokenizer repeatedly on the line returns the values of the
arguments in order and then Absent. -/
theorem parseMany_joinLine (ws : List Written) (hok : ws.all Written.ok = true) :
    parseMany (ws.length + 1) (joinLine ws) =
      ws.map (fun w => Outcome.token w.value) ++ [Outcome.absent] :=
  roundTrip_padded ws hok [] (Or.inl rfl)

/-- C4 on the line `'a b' c`: the tokens are `a b`, then `c`, then Absent. -/
theorem parseMany_joinLine_witness :
    joinLine [.quoted SQUOTE "a b".toList, .bare "c".toList] = "'a b' c".toList ∧
      parseMany 3 "'a b' c".toList =
        [.token "a b".toList, .token "c".toList, .absent] :=
  ⟨by decide,
    parseMany_joinLine [.quoted SQUOTE "a b".toList, .bare "c".toList] (by decide)⟩

/-- C5: on every input on which the tokenizer returns a token, the text between
the start of the token (after the leading whitespace and the opening quote, if
any) and its terminator is a run of pieces, each a backslash followed by one of
the listed escape characters or a single other character, and the token is the
values of these pieces in order: the listed character for an escape (an escaped
quote is a piece, it does not end the token), the character itself
otherwise. -/
theorem token_is_values_of_pieces (input t : List Char) (n : Nat)
    (h : parseString input = (.token t, n)) :
    ∃ ws opener ps rest terminator,
      input = ws ++ (opener ++ (sources ps ++ rest)) ∧
      (∀ c ∈ ws, isspace c = true) ∧
      ((opener = [terminator] ∧ (terminator = SQUOTE ∨ terminator = DQUOTE) ∧
          rest.head? = some terminator) ∨
       (opener = [] ∧ terminator = ' ' ∧ bareStart (sources ps ++ rest) = true ∧
          (rest.head? = some ' ' ∨ atNul rest = true))) ∧
      ps.all (Piece.ok terminator) = true ∧
      t = ps.map Piece.value := by
  obtain ⟨ws, ps, rest, hws, ht, hcase⟩ := parseString_token_shape input t n h
  rcases hcase with ⟨q, hq, hok, hin, hhead, _⟩ | ⟨hok, _, hstart, hin, hstop⟩
  · exact ⟨ws, [q], ps, rest, q, by simpa using hin, hws, Or.inl ⟨rfl, hq, hhead⟩, hok, ht⟩
  · refine ⟨ws, [], ps, rest, ' ', by simpa using hin, hws, Or.inr ⟨rfl, rfl, hstart, ?_⟩,
      hok, ht⟩
    rcases hstop with ⟨h1, _⟩ | ⟨h1, _⟩
    · exact Or.inl h1
    · exact Or.inr h1

/-- C5 on the input `"line1\nline2"` (a backslash and the letter n between the
words): the tokenizer returns the single token line1, newline, line2. -/
theorem token_is_values_of_pieces_witness :
    parseString (DQUOTE :: "line1".toList ++ BACKSLASH :: 'n' :: "line2".toList ++ [DQUOTE]) =
        (.token ("line1".toList ++ Char.ofNat 10 :: "line2".toList), 14) ∧
      ∃ ws opener ps rest terminator,
        DQUOTE :: "line1".toList ++ BACKSLASH :: 'n' :: "line2".toList ++ [DQUOTE] =
          ws ++ (opener ++ (sources ps ++ rest)) ∧
        (∀ c ∈ ws, isspace c = true) ∧
        ((opener = [terminator] ∧ (terminator = SQUOTE ∨ terminator = DQUOTE) ∧
            rest.head? = some terminator) ∨
         (opener = [] ∧ terminator = ' ' ∧ bareStart (sources ps ++ rest) = true ∧
            (rest.head? = some ' ' ∨ atNul rest = true))) ∧
        ps.all (Piece.ok terminator) = true ∧
        "line1".toList ++ Char.ofNat 10 :: "line2".toList = ps.map Piece.value :=
  ⟨by decide, token_is_values_of_pieces _ _ 14 (by decide)⟩

/-- C6: for every input made of whitespace, a quote character `q` and a run of
pieces that can stand before `q` (no unescaped `q`, every escape a listed one),
so that the end of the string comes before any closing quote, the tokenizer
returns Error, hands back no token, and leaves the cursor at the end of the
string. -/
theorem unterminated_quote_error (ws : List Char) (q : Char) (ps : List Piece)
    (hws : ∀ c ∈ ws, isspace c = true) (hq : q = SQUOTE ∨ q = DQUOTE)
    (hps : ps.all (Piece.ok q) = true) :
    parseString (ws ++ q :: sources ps) = (.error, (ws ++ q :: sources ps).length) ∧
      (parseString (ws ++ q :: sources ps)).1.toPtr = none := by
  have hrun := parseString_quoted_run ws q ps [] hws hq hps
  rw [List.append_nil, scanLoop_nil] at hrun
  have hsp : q ≠ ' ' := by rcases hq with rfl | rfl <;> decide
  have hres : parseString (ws ++ q :: sources ps) =
      (.error, (ws ++ q :: sources ps).length) := by
    rw [hrun]
    simp only [atEnd, if_neg hsp, List.length_append, List.length_cons]
    congr 1
    omega
  exact ⟨hres, by rw [hres]; rfl⟩

/-- C6 on the input `"unterminated`: Error, with the cursor at the end of the
string, thirteen characters on. -/
theorem unterminated_quote_error_witness :
    parseString (DQUOTE :: "unterminated".toList) = (.error, 13) ∧
      (parseString (DQUOTE :: "unterminated".toList)).1.toPtr = none :=
  unterminated_quote_error [] DQUOTE (plains "unterminated".toList) (by decide) (by decide)
    (by decide)

/-- C7: for every input made of whitespace, an optional opening quote, a run of
pieces that can stand before the terminator, and then a backslash followed by
a character that is none of the listed escape characters or by the end of the
string, the tokenizer returns Error, hands back no token, and leaves the cursor
on the character after that backslash. -/
theorem bad_escape_error (ws opener : List Char) (ps : List Piece) (rest : List Char)
    (terminator : Char) (hws : ∀ c ∈ ws, isspace c = true)
    (hshape : (opener = [terminator] ∧ (terminator = SQUOTE ∨ terminator = DQUOTE)) ∨
      (opener = [] ∧ terminator = ' ' ∧
        bareStart (sources ps ++ BACKSLASH :: rest) = true))
    (hps : ps.all (Piece.ok terminator) = true)
    (hbad : badEscape (BACKSLASH :: rest) = true) :
    parseString (ws ++ (opener ++ (sources ps ++ BACKSLASH :: rest))) =
        (.error, (ws ++ (opener ++ (sources ps ++ [BACKSLASH]))).length) ∧
      (parseString (ws ++ (opener ++ (sources ps ++ BACKSLASH :: rest)))).1.toPtr = none := by
  have hres : parseString (ws ++ (opener ++ (sources ps ++ BACKSLASH :: rest))) =
      (.error, (ws ++ (opener ++ (sources ps ++ [BACKSLASH]))).length) := by
    rcases hshape with ⟨rfl, hq⟩ | ⟨rfl, rfl, hstart⟩
    · have hb : terminator ≠ BACKSLASH := by rcases hq with rfl | rfl <;> decide
      rw [List.singleton_append, parseString_quoted_run ws terminator ps _ hws hq hps,
        scanLoop_badEscape terminator hb _ _ _ hbad]
      simp only [List.length_append, List.length_cons, List.length_nil]
      congr 1
      omega
    · rw [List.nil_append, parseString_bare_run ws ps _ hws hps hstart,
        scanLoop_badEscape ' ' (by decide) _ _ _ hbad]
      simp only [List.nil_append, List.length_append, List.length_cons, List.length_nil]
      congr 1
  exact ⟨hres, by rw [hres]; rfl⟩

/-- C7 on the input `"bad\qescape"`: Error, with the cursor on the `q`, the
character of index five. -/
theorem bad_escape_error_witness :
    parseString (DQUOTE :: "bad".toList ++ BACKSLASH :: "qescape".toList ++ [DQUOTE]) =
        (.error, 5) ∧
      (DQUOTE :: "bad".toList ++ BACKSLASH :: "qescape".toList ++ [DQUOTE])[5]? = some 'q' ∧
      (parseString
        (DQUOTE :: "bad".toList ++ BACKSLASH :: "qescape".toList ++ [DQUOTE])).1.toPtr = none :=
  have h := bad_escape_error [] [DQUOTE] (plains "bad".toList) ("qescape".toList ++ [DQUOTE])
    DQUOTE (by decide) (by decide) (by decide) (by decide)
  ⟨h.1, by decide, h.2⟩

/-- C8: on an input without NUL (the characters of a C string), the tokenizer
returns Absent exactly when the input is nothing but whitespace, and it returns
the empty token exactly when the first characters after the whitespace are two
identical quote characters; Absent and the empty token are different results,
also as pointers (`NULL` and an empty string). -/
theorem absent_iff_blank_and_empty_iff_quotes (input : List Char) (hnul : NUL ∉ input) :
    ((parseString input).1 = .absent ↔ ∀ c ∈ input, isspace c = true) ∧
      ((parseString input).1 = .token [] ↔
        ∃ ws q rest, (∀ c ∈ ws, isspace c = true) ∧ (q = SQUOTE ∨ q = DQUOTE) ∧
          input = ws ++ q :: q :: rest) ∧
      Outcome.absent ≠ Outcome.token [] ∧
      Outcome.absent.toPtr ≠ (Outcome.token []).toPtr := by
  refine ⟨⟨?_, ?_⟩, ⟨?_, ?_⟩, by decide, by decide⟩
  · intro h
    rcases parseString_shape input with ⟨hend, _⟩ | ⟨q, ps, rest, _, _, _, hcase⟩ |
      ⟨ps, rest, _, _, _, hcase⟩
    · have hdrop : input.dropWhile isspace = [] := by
        cases hr : input.dropWhile isspace with
        | nil => rfl
        | cons c cs =>
          rw [hr] at hend
          simp only [atNul, decide_eq_true_eq] at hend
          have hmem : c ∈ input :=
            (List.dropWhile_sublist isspace).subset (by rw [hr]; simp)
          rw [hend] at hmem
          exact absurd hmem hnul
      exact List.dropWhile_eq_nil_iff.1 hdrop
    · rcases hcase with ⟨_, h0⟩ | ⟨_, h0⟩ | ⟨_, h0⟩ <;> rw [h0] at h <;> cases h
    · rcases hcase with ⟨_, _, h0⟩ | ⟨_, _, h0⟩ | ⟨_, h0⟩ <;> rw [h0] at h <;> cases h
  · intro h
    rw [parseString_eq, List.dropWhile_eq_nil_iff.2 h]
    rfl
  · intro h
    obtain ⟨ws, ps, rest, hws, ht, hcase⟩ :=
      parseString_token_shape input [] (parseString input).2 (by rw [← h])
    have hps : ps = [] := by
      cases ps with
      | nil => rfl
      | cons p ps => simp [values] at ht
    subst hps
    rcases hcase with ⟨q, hq, _, hin, hhead, _⟩ | ⟨_, hne, _⟩
    · cases rest with
      | nil => simp at hhead
      | cons a rest' =>
        simp only [List.head?_cons, Option.some.injEq] at hhead
        subst hhead
        exact ⟨ws, a, rest', hws, hq, by simpa [sources] using hin⟩
    · exact absurd rfl hne
  · rintro ⟨ws, q, rest, hws, hq, rfl⟩
    have := parseString_quoted_run ws q [] (q :: rest) hws hq rfl
    simp only [sources, List.nil_append] at this
    rw [this, scanLoop_terminator]
    rfl

/-- C8 on two inputs: two blanks give Absent, and two double quotes give the
empty token. -/
theorem absent_iff_blank_and_empty_iff_quotes_witness :
    (parseString [' ', ' ']).1 = .absent ∧ (parseString [DQUOTE, DQUOTE]).1 = .token [] :=
  ⟨(absent_iff_blank_and_empty_iff_quotes [' ', ' '] (by decide)).1.2 (by decide),
    (absent_iff_blank_and_empty_iff_quotes [DQUOTE, DQUOTE] (by decide)).2.1.2
      ⟨[], DQUOTE, [], by decide, Or.inr rfl, rfl⟩⟩

/-- After whitespace, the longest run of whitespace of a text that does not
start with whitespace is that whitespace. -/
theorem dropWhile_isspace_append (ws r : List Char) (hws : ∀ c ∈ ws, isspace c = true)
    (hr : ∀ c ∈ r.head?, isspace c = false) : (ws ++ r).dropWhile isspace = r := by
  induction ws with
  | nil =>
    cases r with
    | nil => rfl
    | cons c cs =>
      have := hr c (by simp)
      simp [List.dropWhile_cons, this]
  | cons a ws ih =>
    have ha := hws a (by simp)
    simp only [List.cons_append, List.dropWhile_cons, ha, if_true]
    exact ih fun c hc => hws c (by simp [hc])

/-- No piece that can stand in a bare token has the blank as its value: a plain
character is not the terminator, and no listed escape stands for a blank. -/
theorem blank_not_mem_values (ps : List Piece) (hps : ps.all (Piece.ok ' ') = true) :
    ' ' ∉ values ps := by
  intro hmem
  simp only [values, List.mem_map] at hmem
  obtain ⟨p, hp, hval⟩ := hmem
  have hok := List.all_eq_true.1 hps p hp
  cases p with
  | plain c =>
    simp only [Piece.value] at hval
    subst hval
    simp [Piece.ok] at hok
  | escape d e =>
    simp only [Piece.value] at hval
    subst hval
    simp only [Piece.ok, decide_eq_true_eq] at hok
    revert hok
    simp only [escapeTable, List.mem_cons, Prod.mk.injEq, List.mem_singleton,
      List.not_mem_nil, or_false]
    rintro (h | h | h | h | h | h | h | h | h) <;> exact absurd h.2 (by decide)

/-- C9, as stated, fails: the input a, tab, b starts with a character that is
not a quote and has no backslash, a tab is whitespace, and the tokenizer
returns the whole input, tab included, as one token. -/
theorem bare_token_keeps_tab :
    (['a', Char.ofNat 9, 'b'].dropWhile isspace).head? = some 'a' ∧
      'a' ≠ SQUOTE ∧ 'a' ≠ DQUOTE ∧ BACKSLASH ∉ ['a', Char.ofNat 9, 'b'] ∧
      isspace (Char.ofNat 9) = true ∧
      parseString ['a', Char.ofNat 9, 'b'] = (.token ['a', Char.ofNat 9, 'b'], 3) := by
  decide

/-- C9, amended: for every input whose first character after the leading
whitespace is not a quote, a token returned by the tokenizer contains no space
character: the text of the token is a run of pieces none of which is a plain
space, and it ends at the first such space or at the end of the string. -/
theorem bare_token_has_no_blank (input t : List Char) (n : Nat)
    (hstart : ∀ c ∈ (input.dropWhile isspace).head?, c ≠ SQUOTE ∧ c ≠ DQUOTE)
    (h : parseString input = (.token t, n)) :
    ' ' ∉ t ∧
      ∃ ws ps rest, input = ws ++ (sources ps ++ rest) ∧ (∀ c ∈ ws, isspace c = true) ∧
        ps.all (Piece.ok ' ') = true ∧ t = values ps ∧
        (rest.head? = some ' ' ∨ atNul rest = true) := by
  obtain ⟨ws, ps, rest, hws, ht, hcase⟩ := parseString_token_shape input t n h
  rcases hcase with ⟨q, hq, _, hin, _, _⟩ | ⟨hok, _, _, hin, hstop⟩
  · exfalso
    have hsp : isspace q = false := by rcases hq with rfl | rfl <;> decide
    have hdrop := dropWhile_isspace_append ws (q :: (sources ps ++ rest)) hws
      (by simpa using hsp)
    rw [← hin] at hdrop
    have := hstart q (by rw [hdrop]; simp)
    rcases hq with hq | hq
    · exact this.1 hq
    · exact this.2 hq
  · refine ⟨by rw [ht]; exact blank_not_mem_values ps hok, ws, ps, rest, hin, hws, hok, ht, ?_⟩
    rcases hstop with ⟨h1, _⟩ | ⟨h1, _⟩
    · exact Or.inl h1
    · exact Or.inr h1

/-- C9, amended, on the input `ab cd`: the token `ab` has no space. -/
theorem bare_token_has_no_blank_witness :
    parseString "ab cd".toList = (.token "ab".toList, 3) ∧ ' ' ∉ "ab".toList :=
  ⟨by decide,
    (bare_token_has_no_blank "ab cd".toList "ab".toList 3 (by decide) (by decide)).1⟩

/-- C10, as stated, fails: on the input `a b` the bare token `a` ends at the
space of index 1, and the new cursor is 2, past that space. -/
theorem bare_token_cursor_past_blank :
    parseString "a b".toList = (.token "a".toList, 2) ∧ "a b".toList[1]? = some ' ' ∧
      (parseString "a b".toList).2 ≠ 1 := by
  decide

/-- C10, amended: on every call that returns a token the new cursor is, for a
quoted token, the index just past the closing quote; for a bare token that
ends at a space, the index just past that space; for a bare token that ends at
the end of the string, the index of the end of the string. -/
theorem cursor_after_token (input t : List Char) (n : Nat)
    (h : parseString input = (.token t, n)) :
    (∃ ws q ps rest, (∀ c ∈ ws, isspace c = true) ∧ (q = SQUOTE ∨ q = DQUOTE) ∧
        ps.all (Piece.ok q) = true ∧ input = ws ++ (q :: (sources ps ++ q :: rest)) ∧
        n = (ws ++ (q :: (sources ps ++ [q]))).length) ∨
      (∃ ws ps rest, (∀ c ∈ ws, isspace c = true) ∧ ps.all (Piece.ok ' ') = true ∧
        bareStart (sources ps ++ ' ' :: rest) = true ∧
        input = ws ++ (sources ps ++ ' ' :: rest) ∧
        n = (ws ++ (sources ps ++ [' '])).length) ∨
      (∃ ws ps rest, (∀ c ∈ ws, isspace c = true) ∧ ps.all (Piece.ok ' ') = true ∧
        bareStart (sources ps ++ rest) = true ∧
        input = ws ++ (sources ps ++ rest) ∧ atNul rest = true ∧
        n = (ws ++ sources ps).length) := by
  obtain ⟨ws, ps, rest, hws, _, hcase⟩ := parseString_token_shape input t n h
  rcases hcase with ⟨q, hq, hok, hin, hhead, hn⟩ | ⟨hok, _, hstart, hin, hstop⟩
  · left
    cases rest with
    | nil => simp at hhead
    | cons a rest' =>
      simp only [List.head?_cons, Option.some.injEq] at hhead
      subst hhead
      refine ⟨ws, a, ps, rest', hws, hq, hok, hin, ?_⟩
      simp only [List.length_append, List.length_cons, List.length_nil]
      omega
  · rcases hstop with ⟨hhead, hn⟩ | ⟨hend, hn⟩
    · right; left
      cases rest with
      | nil => simp at hhead
      | cons a rest' =>
        simp only [List.head?_cons, Option.some.injEq] at hhead
        subst hhead
        refine ⟨ws, ps, rest', hws, hok, hstart, hin, ?_⟩
        simp only [List.length_append, List.length_cons, List.length_nil]
        omega
    · right; right
      exact ⟨ws, ps, rest, hws, hok, hstart, hin, hend, by
        simp only [List.length_append]; omega⟩

/-- C10, amended, on the input `a b`: the token is bare and ends at a space, and
the cursor, 2, is just past that space. -/
theorem cursor_after_token_witness :
    parseString "a b".toList = (.token "a".toList, 2) ∧
      ((∃ ws q ps rest, (∀ c ∈ ws, isspace c = true) ∧ (q = SQUOTE ∨ q = DQUOTE) ∧
        ps.all (Piece.ok q) = true ∧ "a b".toList = ws ++ (q :: (sources ps ++ q :: rest)) ∧
        2 = (ws ++ (q :: (sources ps ++ [q]))).length) ∨
      (∃ ws ps rest, (∀ c ∈ ws, isspace c = true) ∧ ps.all (Piece.ok ' ') = true ∧
        bareStart (sources ps ++ ' ' :: rest) = true ∧
        "a b".toList = ws ++ (sources ps ++ ' ' :: rest) ∧
        2 = (ws ++ (sources ps ++ [' '])).length) ∨
      (∃ ws ps rest, (∀ c ∈ ws, isspace c = true) ∧ ps.all (Piece.ok ' ') = true ∧
        bareStart (sources ps ++ rest) = true ∧
        "a b".toList = ws ++ (sources ps ++ rest) ∧ atNul rest = true ∧
        2 = (ws ++ sources ps).length)) :=
  ⟨by decide, cursor_after_token "a b".toList "a".toList 2 (by decide)⟩

/-! ## The handlers `get`, `set` and `del`: claims -/

/-- A `NULL` pointer is what the caller sees for Absent and for Error. -/
theorem toPtr_eq_none_of_absent_or_error (o : Outcome) (h : o = .absent ∨ o = .error) :
    o.toPtr = none := by
  rcases h with rfl | rfl <;> rfl

/-- The pointer the caller sees for a token is the token. -/
theorem toPtr_token (k : List Char) : (Outcome.token k).toPtr = some k := rfl

/-- Reading a key that has just been put gives the value put. -/
theorem getEntry_putEntry (key : Key) (value : List Char) :
    ∀ (l : List (Key × List Char)), getEntry key (putEntry key value l) = (.ok, value)
  | [] => by simp [putEntry, getEntry]
  | (k, v) :: rest => by
    unfold putEntry
    by_cases h1 : key < k
    · rw [if_pos h1]
      simp [getEntry]
    · rw [if_neg h1]
      by_cases h2 : key = k
      · rw [if_pos h2]
        simp [getEntry]
      · rw [if_neg h2]
        unfold getEntry
        rw [if_neg h2]
        exact getEntry_putEntry key value rest

/-- C11: for every argument text on which the tokenizer returns Absent or Error
for the key, `get` and `set` each print the invalid-key message and nothing
else, make no call on the store, and leave the store as it was. -/
theorem invalid_key_no_store_access (db : DB) (args : List Char)
    (h : (parseString args).1 = .absent ∨ (parseString args).1 = .error) :
    ((get db args).out = [INVALID_KEY] ∧ (get db args).calls = [] ∧ (get db args).db = db ∧
        (get db args).undefined = false) ∧
      ((set db args).out = [INVALID_KEY] ∧ (set db args).calls = [] ∧ (set db args).db = db ∧
        (set db args).undefined = false) := by
  have hp := toPtr_eq_none_of_absent_or_error _ h
  unfold get set
  rw [hp]
  exact ⟨⟨rfl, rfl, rfl, rfl⟩, ⟨rfl, rfl, rfl, rfl⟩⟩

/-- C11 on two argument texts: no argument at all (Absent), and a quote that is
not closed (Error). -/
theorem invalid_key_no_store_access_witness :
    ((get abcd []).out = [INVALID_KEY] ∧ (get abcd []).calls = [] ∧ (get abcd []).db = abcd ∧
        (get abcd []).undefined = false) ∧
      ((set abcd (DQUOTE :: "k v".toList)).out = [INVALID_KEY] ∧
        (set abcd (DQUOTE :: "k v".toList)).calls = [] ∧
        (set abcd (DQUOTE :: "k v".toList)).db = abcd ∧
        (set abcd (DQUOTE :: "k v".toList)).undefined = false) :=
  ⟨(invalid_key_no_store_access abcd [] (Or.inl (by decide))).1,
    (invalid_key_no_store_access abcd (DQUOTE :: "k v".toList) (Or.inr (by decide))).2⟩

/-- C12, the code at the failing input: on a line `del` without argument the
tokenizer returns Absent, and `del` prints no invalid-key message and passes
the `NULL` key on to `Delete`, which is not defined there; `get` on the same
argument text prints the message and makes no call. -/
theorem del_passes_null_key :
    (parseString []).1 = .absent ∧
      (del abcd []).calls = [.Delete none] ∧
      INVALID_KEY ∉ (del abcd []).out ∧
      (del abcd []).undefined = true ∧
      (get abcd []).calls = [] ∧ (get abcd []).out = [INVALID_KEY] := by
  decide

/-- C13: for every argument text whose first token is a key `k` and whose
second tokenizer result is Absent or Error, `set` makes exactly one call on
the store, `Put(k, "")`, and prints nothing; on the store it leaves, a `get`
whose key is `k` reads `k` and prints an empty line. -/
theorem set_without_value_puts_empty (db : DB) (args : List Char) (k : Key)
    (hk : (parseString args).1 = .token k)
    (hv : (parseString (args.drop (parseString args).2)).1 = .absent ∨
      (parseString (args.drop (parseString args).2)).1 = .error) :
    (set db args).calls = [.Put k []] ∧ (set db args).out = [] ∧
      (set db args).undefined = false ∧ (set db args).db = (db.Put k []).2 ∧
      ∀ args', (parseString args').1 = .token k →
        (get (set db args).db args').calls = [.Get k] ∧
          (get (set db args).db args').out = ["\n".toList] := by
  have hp := toPtr_eq_none_of_absent_or_error _ hv
  have hset : set db args =
      { out := [], calls := [.Put k []], db := (db.Put k []).2, undefined := false } := by
    unfold set
    rw [hk, toPtr_token]
    simp only [hp, Option.getD_none]
    simp [DB.Put, Status.isOk]
  rw [hset]
  refine ⟨rfl, rfl, rfl, rfl, ?_⟩
  intro args' hk'
  unfold get
  rw [hk', toPtr_token]
  simp [DB.Get, DB.Put, getEntry_putEntry, Status.isOk, cstr]

/-- C13 on the line `set k`: one `Put` of `k` with the empty value, and then
`get k` prints an empty line. -/
theorem set_without_value_puts_empty_witness :
    (set abcd " k".toList).calls = [.Put "k".toList []] ∧
      (get (set abcd " k".toList).db " k".toList).out = ["\n".toList] :=
  have h := set_without_value_puts_empty abcd " k".toList "k".toList (by decide)
    (Or.inl (by decide))
  ⟨h.1, (h.2.2.2.2 " k".toList (by decide)).2⟩

/-! ## The registry, the dispatch, `autocomplete` and `help`: claims -/

/-- The six names of the registry are pairwise distinct. -/
theorem names_nodup : (COMMANDS.map Command.name).Nodup := by decide

/-- The loop of `main` calls the handler of the command whose name is the
command word, when the names at hand are pairwise distinct. -/
theorem dispatchLoop_of_mem (line w : List Char) (c : Command) :
    ∀ (cmds : List Command), (cmds.map Command.name).Nodup → c ∈ cmds → c.name = w →
      dispatchLoop line w cmds =
        [{ handler := c.handler,
           args := (strstr line w).map fun off => line.drop (off + w.length) }]
  | [], _, hmem, _ => by simp at hmem
  | c' :: cmds, hnd, hmem, hname => by
    rw [List.map_cons, List.nodup_cons] at hnd
    unfold dispatchLoop
    by_cases h : c'.name = w
    · rw [if_pos h]
      rcases List.mem_cons.1 hmem with rfl | hmem'
      · rfl
      · exfalso
        apply hnd.1
        rw [h, ← hname]
        exact List.mem_map_of_mem _ hmem'
    · rw [if_neg h]
      rcases List.mem_cons.1 hmem with rfl | hmem'
      · exact absurd hname h
      · exact dispatchLoop_of_mem line w c cmds hnd.2 hmem' hname

/-- The loop of `main` calls no handler when no name is the command word. -/
theorem dispatchLoop_of_not_mem (line w : List Char) :
    ∀ (cmds : List Command), (∀ c ∈ cmds, c.name ≠ w) → dispatchLoop line w cmds = []
  | [], _ => rfl
  | c' :: cmds, h => by
    unfold dispatchLoop
    rw [if_neg (h c' (by simp))]
    exact dispatchLoop_of_not_mem line w cmds fun c hc => h c (by simp [hc])

/-- What is left after the longest run on which a test holds does not start
with a character on which it holds. -/
theorem head_dropWhile_false {α : Type} (p : α → Bool) :
    ∀ (l : List α) (c : α) (cs : List α), l.dropWhile p = c :: cs → p c = false
  | [], _, _, h => by simp at h
  | a :: l, c, cs, h => by
    by_cases ha : p a = true
    · rw [List.dropWhile_cons_of_pos ha] at h
      exact head_dropWhile_false p l c cs h
    · rw [List.dropWhile_cons_of_neg ha] at h
      cases h
      simpa using ha

/-- A string is found at offset zero in a string that starts with it. -/
theorem strstr_at_start (hay needle : List Char) (h : needle <+: hay) :
    strstr hay needle = some 0 := by
  cases hay with
  | nil =>
    have : needle = [] := List.prefix_nil.1 h
    simp [strstr, this]
  | cons a hay =>
    unfold strstr
    rw [if_pos (List.isPrefixOf_iff_prefix.2 h)]

/-- On a line that starts with a character that is neither whitespace nor NUL,
the word that `sscanf` reads is the run of such characters at the head of the
line. -/
theorem sscanfWord_spec (line : List Char) (c : Char) (cs : List Char) (hline : line = c :: cs)
    (hc : isspace c = false) (hnul : c ≠ NUL) :
    ∃ rest, line = sscanfWord line ++ rest ∧ sscanfWord line ≠ [] ∧
      (∀ a ∈ sscanfWord line, isspace a = false ∧ a ≠ NUL) ∧
      ∀ a ∈ rest.head?, isspace a = true ∨ a = NUL := by
  have hdrop : line.dropWhile isspace = line := by
    rw [hline, List.dropWhile_cons_of_neg (by simp [hc])]
  have hw : sscanfWord line = line.takeWhile fun a => !isspace a && a ≠ NUL := by
    unfold sscanfWord
    rw [hdrop]
  refine ⟨line.dropWhile fun a => !isspace a && a ≠ NUL, ?_, ?_, ?_, ?_⟩
  · rw [hw, List.takeWhile_append_dropWhile]
  · rw [hw, hline, List.takeWhile_cons_of_pos (by simp [hc, hnul])]
    simp
  · intro a ha
    rw [hw] at ha
    have := List.mem_takeWhile_imp ha
    simpa using this
  · intro a ha
    cases hr : line.dropWhile (fun a => !isspace a && a ≠ NUL) with
    | nil => rw [hr] at ha; simp at ha
    | cons b rest =>
      rw [hr] at ha
      simp only [List.head?_cons, Option.mem_def, Option.some.injEq] at ha
      subst ha
      have hb : (fun a => !isspace a && decide (a ≠ NUL)) b = false :=
        head_dropWhile_false _ line b rest hr
      by_cases hsp : isspace b = true
      · exact Or.inl hsp
      · right
        simpa [hsp] using hb

/-- C14: for every line that starts with a character that is neither whitespace
nor NUL (a trimmed line that is not empty), with `w` its first word: when `w`
is exactly the name of a command of the registry, `main` calls one handler,
the handler of that command, on the line without its first `length w`
characters, and does nothing else; when `w` is the name of no command, `main`
calls no handler, makes no call on the store, leaves it as it was, and prints
`Unrecognized command '<w>'.`. The six names are pairwise distinct. -/
theorem dispatch_exact_name (db : DB) (line : List Char) (c0 : Char) (cs0 : List Char)
    (hline : line = c0 :: cs0) (hc : isspace c0 = false) (hnul : c0 ≠ NUL) :
    (∃ rest, line = sscanfWord line ++ rest ∧ sscanfWord line ≠ [] ∧
        (∀ a ∈ sscanfWord line, isspace a = false ∧ a ≠ NUL) ∧
        ∀ a ∈ rest.head?, isspace a = true ∨ a = NUL) ∧
      (∀ c ∈ COMMANDS, c.name = sscanfWord line →
        dispatch line =
            [{ handler := c.handler, args := some (line.drop (sscanfWord line).length) }] ∧
          (mainBody db line).out =
            (runHandler c.handler db (line.drop (sscanfWord line).length)).out ∧
          (mainBody db line).calls =
            (runHandler c.handler db (line.drop (sscanfWord line).length)).calls ∧
          (mainBody db line).db =
            (runHandler c.handler db (line.drop (sscanfWord line).length)).db ∧
          (mainBody db line).undefined =
            (runHandler c.handler db (line.drop (sscanfWord line).length)).undefined) ∧
      ((∀ c ∈ COMMANDS, c.name ≠ sscanfWord line) →
        dispatch line = [] ∧
          (mainBody db line).out =
            ["Unrecognized command '".toList ++ sscanfWord line ++ "'.\n".toList] ∧
          (mainBody db line).calls = [] ∧ (mainBody db line).db = db ∧
          (mainBody db line).undefined = false) ∧
      (COMMANDS.map Command.name).Nodup ∧ COMMANDS.length = 6 := by
  have hword := sscanfWord_spec line c0 cs0 hline hc hnul
  refine ⟨hword, ?_, ?_, names_nodup, rfl⟩
  · intro c hmem hname
    obtain ⟨rest, hsplit, _⟩ := hword
    have hfound : strstr line (sscanfWord line) = some 0 :=
      strstr_at_start _ _ ⟨rest, hsplit.symm⟩
    have hd : dispatch line =
        [{ handler := c.handler, args := some (line.drop (sscanfWord line).length) }] := by
      unfold dispatch
      rw [dispatchLoop_of_mem line _ c COMMANDS names_nodup hmem hname, hfound]
      simp
    refine ⟨hd, ?_, ?_, ?_, ?_⟩ <;> simp [mainBody, hd, runInvocations]
  · intro hnone
    have hd : dispatch line = [] := dispatchLoop_of_not_mem line _ COMMANDS hnone
    refine ⟨hd, ?_, ?_, ?_, ?_⟩ <;> simp [mainBody, hd, runInvocations]

/-- C14 on three lines: `get  a` calls `get` on the two blanks and `a`; `Get a`
and `ge a` call nothing and are reported as not recognized. -/
theorem dispatch_exact_name_witness :
    dispatch "get  a".toList = [{ handler := .get, args := some "  a".toList }] ∧
      (dispatch "Get a".toList = [] ∧
        (mainBody abcd "Get a".toList).out = ["Unrecognized command 'Get'.\n".toList]) ∧
      (dispatch "ge a".toList = [] ∧ (mainBody abcd "ge a".toList).db = abcd) :=
  have h1 := (dispatch_exact_name abcd "get  a".toList 'g' "et  a".toList (by decide)
    (by decide) (by decide)).2.1
    { name := "get".toList, args := "<key>".toList,
      description := "Prints the value of <key>.".toList, handler := .get }
    (by decide) (by decide)
  have h2 := (dispatch_exact_name abcd "Get a".toList 'G' "et a".toList (by decide)
    (by decide) (by decide)).2.2.1 (by decide)
  have h3 := (dispatch_exact_name abcd "ge a".toList 'g' "e a".toList (by decide)
    (by decide) (by decide)).2.2.1 (by decide)
  ⟨h1.1, ⟨h2.1, h2.2.1⟩, ⟨h3.1, h3.2.2.2.1⟩⟩

/-- The comparison `strncmp(name, pre, strlen(pre))` is zero exactly when the
name starts with `pre`. -/
theorem strncmp_eq_zero_iff :
    ∀ (pre name : List Char), strncmp name pre pre.length = 0 ↔ pre <+: name
  | [], name => by simp [strncmp]
  | b :: bs, [] => by simp [strncmp]
  | b :: bs, a :: as => by
    simp only [List.length_cons, strncmp]
    by_cases h : a = b
    · subst h
      rw [if_pos rfl, strncmp_eq_zero_iff bs as, List.cons_prefix_cons]
      simp
    · rw [if_neg h]
      constructor
      · intro h0
        split_ifs at h0
        all_goals simp at h0
      · intro hp
        exact absurd (List.cons_prefix_cons.1 hp).1.symm h

/-- The loop of `autocomplete` adds, in order, the names that start with
`pre`. -/
theorem autocompleteLoop_eq (pre : List Char) :
    ∀ (cmds : List Command) (completions : List (List Char)),
      autocompleteLoop pre cmds completions =
        completions ++ (cmds.map Command.name).filter fun n => decide (pre <+: n)
  | [], completions => by simp [autocompleteLoop]
  | c :: cmds, completions => by
    unfold autocompleteLoop
    by_cases h : pre <+: c.name
    · rw [if_pos ((strncmp_eq_zero_iff pre c.name).2 h), autocompleteLoop_eq pre cmds,
        List.map_cons, List.filter_cons_of_pos (by simpa using h)]
      simp
    · rw [if_neg (fun h0 => h ((strncmp_eq_zero_iff pre c.name).1 h0)),
        autocompleteLoop_eq pre cmds, List.map_cons,
        List.filter_cons_of_neg (by simpa using h)]

/-- C15: for every string `pre`, `autocomplete` adds to the completions exactly
the names of the registry that start with `pre`, each once, in the order of
the registry (del, get, list, rlist, set, help): all six for the empty string,
none when `pre` is longer than every name. Its only effect is on the
completions. -/
theorem autocomplete_offers_matching_names (pre : List Char)
    (completions : List (List Char)) :
    autocomplete pre completions =
        completions ++ (COMMANDS.map Command.name).filter (fun n => decide (pre <+: n)) ∧
      ((COMMANDS.map Command.name).filter fun n => decide (pre <+: n)).Nodup ∧
      COMMANDS.map Command.name =
        ["del".toList, "get".toList, "list".toList, "rlist".toList, "set".toList,
          "help".toList] ∧
      autocomplete [] [] = COMMANDS.map Command.name ∧
      ((∀ n ∈ COMMANDS.map Command.name, n.length < pre.length) →
        autocomplete pre completions = completions) := by
  have h := autocompleteLoop_eq pre COMMANDS completions
  refine ⟨h, names_nodup.sublist (List.filter_sublist _), by decide, by decide, ?_⟩
  intro hlong
  unfold autocomplete
  rw [h]
  have : ((COMMANDS.map Command.name).filter fun n => decide (pre <+: n)) = [] := by
    rw [List.filter_eq_nil_iff]
    intro n hn hp
    have hle := (of_decide_eq_true hp).length_le
    have := hlong n hn
    omega
  rw [this, List.append_nil]

/-- C15 on two strings: `l` offers `list` alone, and `listing`, longer than
every name, offers nothing. -/
theorem autocomplete_offers_matching_names_witness :
    autocomplete "l".toList [] = ["list".toList] ∧ autocomplete "listing".toList [] = [] :=
  ⟨by
      have h := (autocomplete_offers_matching_names "l".toList []).1
      rw [h]
      decide,
    (autocomplete_offers_matching_names "listing".toList []).2.2.2.2 (by decide)⟩

/-- The first loop of `help` prints the line of the command whose name is the
token, when the names at hand are pairwise distinct. -/
theorem helpLoop_of_mem (w : List Char) (c : Command) :
    ∀ (cmds : List Command), (cmds.map Command.name).Nodup → c ∈ cmds → c.name = w →
      helpLoop w cmds = some (helpLine c)
  | [], _, hmem, _ => by simp at hmem
  | c' :: cmds, hnd, hmem, hname => by
    rw [List.map_cons, List.nodup_cons] at hnd
    unfold helpLoop
    by_cases h : c'.name = w
    · rw [if_pos h]
      rcases List.mem_cons.1 hmem with rfl | hmem'
      · rfl
      · exfalso
        apply hnd.1
        rw [h, ← hname]
        exact List.mem_map_of_mem _ hmem'
    · rw [if_neg h]
      rcases List.mem_cons.1 hmem with rfl | hmem'
      · exact absurd hname h
      · exact helpLoop_of_mem w c cmds hnd.2 hmem' hname

/-- The first loop of `help` prints nothing when no name is the token. -/
theorem helpLoop_of_not_mem (w : List Char) :
    ∀ (cmds : List Command), (∀ c ∈ cmds, c.name ≠ w) → helpLoop w cmds = none
  | [], _ => rfl
  | c' :: cmds, h => by
    unfold helpLoop
    rw [if_neg (h c' (by simp))]
    exact helpLoop_of_not_mem w cmds fun c hc => h c (by simp [hc])

/-- C16: for every argument text, `help` prints exactly one formatted line, that
of the command `c`, when the first token is present and is the name of `c`; in
every other case (the token is Absent, an Error, or the name of no command) it
prints the formatted lines of all six commands, one each, in the order of the
registry. -/
theorem help_prints_one_or_all (args : List Char) :
    (∀ c ∈ COMMANDS, (parseString args).1 = .token c.name → help args = [helpLine c]) ∧
      ((∀ c ∈ COMMANDS, (parseString args).1 ≠ .token c.name) →
        help args = COMMANDS.map helpLine) ∧
      (COMMANDS.map helpLine).length = 6 := by
  refine ⟨?_, ?_, rfl⟩
  · intro c hmem htok
    unfold help
    rw [htok, toPtr_token]
    simp only
    rw [helpLoop_of_mem c.name c COMMANDS names_nodup hmem rfl]
  · intro hnone
    unfold help
    cases htok : (parseString args).1 with
    | absent => rfl
    | error => rfl
    | token w =>
      rw [toPtr_token]
      simp only
      rw [helpLoop_of_not_mem w COMMANDS]
      intro c hc hname
      exact hnone c hc (by rw [htok, hname])

/-- C16 on three argument texts: `help get` prints the one line of `get`, padded
to the widths 5 and 20; `help nope` and `help` print the six lines. -/
theorem help_prints_one_or_all_witness :
    help " get".toList =
        ["get   <key>                Prints the value of <key>.\n".toList] ∧
      help " nope".toList = COMMANDS.map helpLine ∧ help [] = COMMANDS.map helpLine :=
  ⟨by
      have h := (help_prints_one_or_all " get".toList).1
        { name := "get".toList, args := "<key>".toList,
          description := "Prints the value of <key>.".toList, handler := .get }
        (by decide) (by decide)
      rw [h]
      decide,
    (help_prints_one_or_all " nope".toList).2.1 (by decide),
    (help_prints_one_or_all []).2.1 (by decide)⟩

/-! ## The order of the arguments of `rlist`: claim -/

/-- C17: the first argument of `rlist` is the upper bound and the second the
lower bound. For every store with its keys in ascending order and every
argument text, with `hi` and `lo` the two optional tokens read from it, `rlist`
ends and prints exactly the stored keys `k` with `lo ≤ k` (when `lo` is
present) and `k ≤ hi` (when `hi` is present), each once, in descending order;
this is the reverse of what `list` prints on an argument text whose tokens are
`lo` and `hi`. -/
theorem rlist_prints_range_descending (db : DB) (hdb : db.WF) (args : List Char)
    (hi lo : Option Key) (hargs : parseBounds args = (hi, lo)) :
    ∃ out, rlist db args = some out ∧
      out = (db.keys.filter fun k => inRange lo hi k).reverse ∧
      out.Sorted (· > ·) ∧
      (∀ k, k ∈ out ↔
        k ∈ db.keys ∧ (∀ a, lo = some a → a ≤ k) ∧ (∀ b, hi = some b → k ≤ b)) ∧
      ∀ args', parseBounds args' = (lo, hi) → list db args' = some out.reverse := by
  have hsub : (db.keys.filter fun k => inRange lo hi k).Pairwise (· < ·) :=
    List.Pairwise.sublist (List.filter_sublist _) hdb
  refine ⟨_, ?_, rfl, ?_, ?_, ?_⟩
  · unfold rlist DB.NewIterator
    rw [hargs]
    exact rlistScan_eq db.keys hdb none hi lo
  · exact List.pairwise_reverse.2 hsub
  · intro k
    cases lo <;> cases hi <;> simp [inRange]
  · intro args' hargs'
    unfold list DB.NewIterator
    rw [hargs', List.reverse_reverse]
    exact listScan_eq db.keys hdb none lo hi

/-- C17 on the keys a, b, c, d: `rlist c b` prints c, b, the reverse of the b, c
of `list b c`; `rlist b` prints b, a. -/
theorem rlist_prints_range_descending_witness :
    abcd.WF ∧ rlist abcd " c b".toList = some ["c".toList, "b".toList] ∧
      list abcd " b c".toList = some ["b".toList, "c".toList] ∧
      rlist abcd " b".toList = some ["b".toList, "a".toList] := by
  have hwf : abcd.WF := by unfold DB.WF; decide
  obtain ⟨o1, h1, e1, _, _, l1⟩ := rlist_prints_range_descending abcd hwf " c b".toList
    (some "c".toList) (some "b".toList) (by decide)
  obtain ⟨o2, h2, e2, _⟩ := rlist_prints_range_descending abcd hwf " b".toList
    (some "b".toList) none (by decide)
  have hl := l1 " b c".toList (by decide)
  have ho1 : o1 = ["c".toList, "b".toList] := by rw [e1]; decide
  have ho2 : o2 = ["b".toList, "a".toList] := by rw [e2]; decide
  subst ho1 ho2
  exact ⟨hwf, h1, hl, h2⟩

/-! ## Progress and the output buffer of the tokenizer: claims -/

/-- A whitespace character is not the NUL that ends the string. -/
theorem ne_nul_of_isspace (c : Char) (h : isspace c = true) : c ≠ NUL := by
  rintro rfl
  revert h
  decide

/-- The text of a run of pieces that can stand before a terminator has no
NUL. -/
theorem ne_nul_of_mem_sources (terminator : Char) :
    ∀ (ps : List Piece), ps.all (Piece.ok terminator) = true → ∀ c ∈ sources ps, c ≠ NUL
  | [], _, c, hc => by simp [sources] at hc
  | .plain a :: ps, h, c, hc => by
    simp only [List.all_cons, Bool.and_eq_true, Piece.ok, decide_eq_true_eq,
      Bool.decide_eq_true] at h
    simp only [sources, Piece.source, List.singleton_append, List.mem_cons] at hc
    rcases hc with rfl | hc
    · simpa using h.1.2
    · exact ne_nul_of_mem_sources terminator ps h.2 c hc
  | .escape d e :: ps, h, c, hc => by
    simp only [List.all_cons, Bool.and_eq_true, Piece.ok, decide_eq_true_eq] at h
    simp only [sources, Piece.source, List.cons_append, List.nil_append, List.mem_cons] at hc
    rcases hc with rfl | rfl | hc
    · decide
    · have hd := h.1
      simp only [escapeTable, List.mem_cons, Prod.mk.injEq, List.mem_singleton,
        List.not_mem_nil, or_false] at hd
      rcases hd with hd | hd | hd | hd | hd | hd | hd | hd | hd <;> rw [hd.1] <;> decide
    · exact ne_nul_of_mem_sources terminator ps h.2 c hc

/-- A run of pieces is written with at least one character per piece. -/
theorem length_le_length_sources : ∀ (ps : List Piece), ps.length ≤ (sources ps).length
  | [] => by simp [sources]
  | p :: ps => by
    have := length_le_length_sources ps
    cases p <;> simp [sources, Piece.source] <;> omega

/-- A prefix without NUL is not longer than the string. -/
theorem length_le_strlen :
    ∀ (a b : List Char), (∀ c ∈ a, c ≠ NUL) → a.length ≤ strlen (a ++ b)
  | [], _, _ => by simp
  | x :: a, b, h => by
    have hx := h x (by simp)
    have := length_le_strlen a b fun c hc => h c (by simp [hc])
    unfold strlen at this ⊢
    rw [List.cons_append, List.takeWhile_cons_of_pos (by simpa using hx)]
    simp only [List.length_cons]
    omega

/-- The cursor stays within the string when the part of the input it has gone
over has no NUL. -/
theorem le_strlen_of_eq_append (input a b : List Char) (n : Nat) (hin : input = a ++ b)
    (ha : ∀ c ∈ a, c ≠ NUL) (hn : n = a.length) : n ≤ strlen input := by
  rw [hin, hn]
  exact length_le_strlen a b ha

/-- Every call either returns Absent and leaves the cursor, or advances the
cursor by at least one character and not beyond the end of the string. -/
theorem parseString_cursor_bounds (input : List Char) :
    ((parseString input).1 = .absent ∧ (parseString input).2 = 0) ∨
      ((parseString input).1 ≠ .absent ∧ 1 ≤ (parseString input).2 ∧
        (parseString input).2 ≤ strlen input) := by
  have hsplit := (List.takeWhile_append_dropWhile isspace input).symm
  have hws : ∀ c ∈ input.takeWhile isspace, c ≠ NUL :=
    fun c hc => ne_nul_of_isspace c (List.mem_takeWhile_imp hc)
  have hshape := parseString_shape input
  generalize input.takeWhile isspace = ws at hsplit hws hshape
  rcases hshape with ⟨_, h0⟩ | ⟨q, ps, rest, hq, hr, hok, hcase⟩ |
    ⟨ps, rest, hr, _, hok, hcase⟩
  · left
    rw [h0]
    exact ⟨rfl, rfl⟩
  · right
    have hqn : q ≠ NUL := by rcases hq with rfl | rfl <;> decide
    have hsrc := ne_nul_of_mem_sources q ps hok
    rw [hr] at hsplit
    rcases hcase with ⟨hhead, h0⟩ | ⟨_, h0⟩ | ⟨hbad, h0⟩
    · obtain ⟨rest', rfl⟩ : ∃ rest', rest = q :: rest' := by
        cases rest with
        | nil => simp at hhead
        | cons a rest' => simp at hhead; exact ⟨rest', by rw [hhead]⟩
      rw [h0]
      refine ⟨by simp, by simp, ?_⟩
      apply le_strlen_of_eq_append input
        (ws ++ q :: (sources ps ++ [q])) rest'
      · rw [hsplit]; simp
      · intro c hc
        simp only [List.mem_append, List.mem_cons, List.mem_singleton, List.not_mem_nil,
          or_false] at hc
        rcases hc with h | rfl | h | rfl
        · exact hws c h
        · exact hqn
        · exact hsrc c h
        · exact hqn
      · simp only [List.length_append, List.length_cons, List.length_nil]
        omega
    · rw [h0]
      refine ⟨by simp, by simp, ?_⟩
      apply le_strlen_of_eq_append input (ws ++ q :: sources ps) rest
      · rw [hsplit]; simp
      · intro c hc
        simp only [List.mem_append, List.mem_cons] at hc
        rcases hc with h | rfl | h
        · exact hws c h
        · exact hqn
        · exact hsrc c h
      · simp only [List.length_append, List.length_cons]
        omega
    · obtain ⟨rest', rfl⟩ : ∃ rest', rest = BACKSLASH :: rest' := by
        cases rest with
        | nil => simp [badEscape] at hbad
        | cons a rest' =>
          simp only [badEscape, Bool.and_eq_true, decide_eq_true_eq] at hbad
          exact ⟨rest', by rw [hbad.1]⟩
      rw [h0]
      refine ⟨by simp, by simp, ?_⟩
      apply le_strlen_of_eq_append input
        (ws ++ q :: (sources ps ++ [BACKSLASH])) rest'
      · rw [hsplit]; simp
      · intro c hc
        simp only [List.mem_append, List.mem_cons, List.mem_singleton, List.not_mem_nil,
          or_false] at hc
        rcases hc with h | rfl | h | rfl
        · exact hws c h
        · exact hqn
        · exact hsrc c h
        · decide
      · simp only [List.length_append, List.length_cons, List.length_nil]
        omega
  · right
    have hsrc := ne_nul_of_mem_sources ' ' ps hok
    rw [hr] at hsplit
    rcases hcase with ⟨hhead, hne, h0⟩ | ⟨_, hne, h0⟩ | ⟨hbad, h0⟩
    · obtain ⟨rest', rfl⟩ : ∃ rest', rest = ' ' :: rest' := by
        cases rest with
        | nil => simp at hhead
        | cons a rest' => simp at hhead; exact ⟨rest', by rw [hhead]⟩
      rw [h0]
      refine ⟨by simp, by simp, ?_⟩
      apply le_strlen_of_eq_append input
        (ws ++ (sources ps ++ [' '])) rest'
      · rw [hsplit]; simp
      · intro c hc
        simp only [List.mem_append, List.mem_singleton] at hc
        rcases hc with h | h | rfl
        · exact hws c h
        · exact hsrc c h
        · decide
      · simp only [List.length_append, List.length_cons, List.length_nil]
        omega
    · rw [h0]
      have hlen := length_le_length_sources ps
      have hpos : 0 < ps.length := List.length_pos.2 hne
      refine ⟨by simp, by simp only; omega, ?_⟩
      apply le_strlen_of_eq_append input (ws ++ sources ps) rest
      · rw [hsplit]; simp
      · intro c hc
        simp only [List.mem_append] at hc
        rcases hc with h | h
        · exact hws c h
        · exact hsrc c h
      · simp only [List.length_append]
    · obtain ⟨rest', rfl⟩ : ∃ rest', rest = BACKSLASH :: rest' := by
        cases rest with
        | nil => simp [badEscape] at hbad
        | cons a rest' =>
          simp only [badEscape, Bool.and_eq_true, decide_eq_true_eq] at hbad
          exact ⟨rest', by rw [hbad.1]⟩
      rw [h0]
      refine ⟨by simp, by simp, ?_⟩
      apply le_strlen_of_eq_append input
        (ws ++ (sources ps ++ [BACKSLASH])) rest'
      · rw [hsplit]; simp
      · intro c hc
        simp only [List.mem_append, List.mem_singleton] at hc
        rcases hc with h | h | rfl
        · exact hws c h
        · exact hsrc c h
        · decide
      · simp only [List.length_append, List.length_cons, List.length_nil]
        omega

/-- Advancing within the string shortens what is left of it by as much. -/
theorem strlen_drop :
    ∀ (n : Nat) (l : List Char), n ≤ strlen l → strlen (l.drop n) = strlen l - n
  | 0, l, _ => by simp
  | n + 1, [], h => by simp [strlen] at h
  | n + 1, c :: cs, h => by
    by_cases hc : c = NUL
    · subst hc
      have : strlen (NUL :: cs) = 0 := by
        simp [strlen]
      rw [this] at h
      omega
    · have hs : strlen (c :: cs) = strlen cs + 1 := by
        unfold strlen
        rw [List.takeWhile_cons_of_pos (by simpa using hc)]
        rfl
      rw [hs] at h ⊢
      rw [List.drop_succ_cons, strlen_drop n cs (by omega)]
      omega

/-- Calling the tokenizer again and again on a string of at most `m`
characters, Absent is returned after at most `m` calls that return something
else. -/
theorem parseMany_reaches_absent :
    ∀ (m : Nat) (input : List Char), strlen input ≤ m →
      ∃ k, k ≤ m ∧ (parseMany (k + 1) input).getLast? = some .absent ∧
        ∀ j, j < k → (parseMany (k + 1) input)[j]? ≠ some .absent
  | 0, input, h => by
    rcases parseString_cursor_bounds input with ⟨h1, _⟩ | ⟨_, h2, h3⟩
    · exact ⟨0, le_refl _, by simp [parseMany, h1], fun j hj => by omega⟩
    · omega
  | m + 1, input, h => by
    rcases parseString_cursor_bounds input with ⟨h1, _⟩ | ⟨h1, h2, h3⟩
    · exact ⟨0, by omega, by simp [parseMany, h1], fun j hj => by omega⟩
    · have hrest : strlen (input.drop (parseString input).2) ≤ m := by
        rw [strlen_drop _ _ h3]
        omega
      obtain ⟨k, hk, hlast, hbefore⟩ := parseMany_reaches_absent m _ hrest
      refine ⟨k + 1, by omega, ?_, ?_⟩
      · rw [parseMany_succ]
        rw [parseMany_succ] at hlast ⊢
        rw [List.getLast?_cons_cons]
        exact hlast
      · intro j hj
        rw [parseMany_succ]
        cases j with
        | zero =>
          simp only [List.getElem?_cons_zero, ne_eq, Option.some.injEq]
          exact h1
        | succ j' =>
          rw [List.getElem?_cons_succ]
          exact hbefore j' (by omega)

/-- The end of the string is within the list of its characters. -/
theorem strlen_le_length (l : List Char) : strlen l ≤ l.length :=
  (List.takeWhile_sublist _).length_le

/-- C18: the tokenizer, a function defined on every input by recursion on the
characters that are left, makes progress: a call that returns Absent leaves
the cursor unchanged; every call that returns a token or an Error advances the
cursor by at least one character; no call advances it beyond the end of the
string; hence, calling it again and again on a string of length `n`, Absent is
returned after at most `n` calls that return something else. -/
theorem tokenizer_makes_progress (input : List Char) :
    ((parseString input).1 = .absent → (parseString input).2 = 0) ∧
      ((parseString input).1 ≠ .absent → 1 ≤ (parseString input).2) ∧
      (parseString input).2 ≤ strlen input ∧ strlen input ≤ input.length ∧
      ∃ k, k ≤ strlen input ∧ (parseMany (k + 1) input).getLast? = some .absent ∧
        ∀ j, j < k → (parseMany (k + 1) input)[j]? ≠ some .absent := by
  refine ⟨?_, ?_, ?_, strlen_le_length input,
    parseMany_reaches_absent (strlen input) input (le_refl _)⟩
  · intro h
    rcases parseString_cursor_bounds input with ⟨_, h2⟩ | ⟨h1, _⟩
    · exact h2
    · exact absurd h h1
  · intro h
    rcases parseString_cursor_bounds input with ⟨h1, _⟩ | ⟨_, h2, _⟩
    · exact absurd h1 h
    · exact h2
  · rcases parseString_cursor_bounds input with ⟨_, h2⟩ | ⟨_, _, h3⟩
    · rw [h2]; exact Nat.zero_le _
    · exact h3

/-- C18 on the line `'a b' c`, of seven characters: the first call advances
the cursor by five, and the third call returns Absent. -/
theorem tokenizer_makes_progress_witness :
    1 ≤ (parseString "'a b' c".toList).2 ∧
      (parseString "'a b' c".toList).2 ≤ strlen "'a b' c".toList ∧
      (parseString []).2 = 0 ∧
      (parseMany 3 "'a b' c".toList).getLast? = some .absent :=
  ⟨(tokenizer_makes_progress "'a b' c".toList).2.1 (by decide),
    (tokenizer_makes_progress "'a b' c".toList).2.2.1,
    (tokenizer_makes_progress []).1 (by decide), by decide⟩

/-- The loop with its buffer, at the end of the list. -/
theorem scanLoopBuf_nil (cap : Nat) (terminator : Char) (i : Nat) (out : List Char) :
    scanLoopBuf cap terminator [] i out =
      if terminator = ' ' then (if out.length < cap then some (.token out, i) else none)
      else some (.error, i) := by
  rw [scanLoopBuf.eq_def]

/-- One turn of the loop with its buffer. -/
theorem scanLoopBuf_cons (cap : Nat) (terminator c : Char) (cs : List Char) (i : Nat)
    (out : List Char) :
    scanLoopBuf cap terminator (c :: cs) i out =
      if c = terminator then (if out.length < cap then some (.token out, i + 1) else none)
      else if c = NUL then
        if terminator = ' ' then (if out.length < cap then some (.token out, i) else none)
        else some (.error, i)
      else if c = BACKSLASH then
        match cs with
        | [] => some (.error, i + 1)
        | d :: ds =>
          match escapeChar d with
          | some e =>
            if out.length < cap then scanLoopBuf cap terminator ds (i + 2) (out ++ [e])
            else none
          | none => some (.error, i + 1)
      else if out.length < cap then scanLoopBuf cap terminator cs (i + 1) (out ++ [c])
      else none := by
  rw [scanLoopBuf.eq_def]

/-- While the characters written and the characters left are together fewer
than the bytes of the buffer, the loop never leaves the buffer and does what
the loop without a bound does. -/
theorem scanLoopBuf_eq (cap : Nat) (terminator : Char) :
    ∀ (rest : List Char) (i : Nat) (out : List Char), out.length + rest.length < cap →
      scanLoopBuf cap terminator rest i out = some (scanLoop terminator rest i out)
  | [], i, out, h => by
    have hlt : out.length < cap := by simp at h; omega
    rw [scanLoopBuf_nil, scanLoop_nil, atEnd, if_pos hlt]
    split_ifs <;> rfl
  | [c], i, out, h => by
    have hlt : out.length < cap := by simp at h; omega
    rw [scanLoopBuf_cons, scanLoop_cons, atEnd, if_pos hlt]
    have hnext := scanLoopBuf_eq cap terminator [] (i + 1) (out ++ [c])
      (by simp at h ⊢; omega)
    rw [hnext]
    split_ifs <;> rfl
  | c :: d :: ds, i, out, h => by
    have hlt : out.length < cap := by simp at h; omega
    rw [scanLoopBuf_cons, scanLoop_cons, atEnd, if_pos hlt]
    have h1 := scanLoopBuf_eq cap terminator (d :: ds) (i + 1) (out ++ [c])
      (by simp at h ⊢; omega)
    rw [h1]
    by_cases hc1 : c = terminator
    · rw [if_pos hc1, if_pos hc1]
    rw [if_neg hc1, if_neg hc1]
    by_cases hc2 : c = NUL
    · rw [if_pos hc2, if_pos hc2]
      split_ifs <;> rfl
    rw [if_neg hc2, if_neg hc2]
    by_cases hc3 : c = BACKSLASH
    · rw [if_pos hc3, if_pos hc3]
      simp only
      cases hd : escapeChar d with
      | none => rfl
      | some e =>
        have h2 := scanLoopBuf_eq cap terminator ds (i + 2) (out ++ [e])
          (by simp at h ⊢; omega)
        simp only [h2, if_pos hlt]
    · rw [if_neg hc3, if_neg hc3, if_pos hlt]

/-- On an input shorter than the buffer, `parseString` never leaves the buffer
and does what the function without a bound does. -/
theorem parseStringBuf_eq (cap : Nat) (input : List Char) (h : input.length < cap) :
    parseStringBuf cap input = some (parseString input) := by
  unfold parseStringBuf parseString
  have hlen : (skipSpaces input 0).1.length ≤ input.length := by
    rw [skipSpaces_eq]
    exact (List.dropWhile_sublist _).length_le
  cases hr : (skipSpaces input 0).1 with
  | nil => rfl
  | cons c cs =>
    rw [hr] at hlen
    simp only [List.length_cons] at hlen
    simp only [afterSpaces]
    by_cases hc1 : c = NUL
    · rw [if_pos hc1, if_pos hc1]
    rw [if_neg hc1, if_neg hc1]
    by_cases hc2 : c = SQUOTE ∨ c = DQUOTE
    · rw [if_pos hc2, if_pos hc2]
      exact scanLoopBuf_eq cap c cs _ [] (by simp; omega)
    · rw [if_neg hc2, if_neg hc2]
      exact scanLoopBuf_eq cap ' ' (c :: cs) _ [] (by simp; omega)

/-- C19: the length of a token is at most the number of characters the call
has gone over (each character of the token is written from one or two
characters of the input); so on every input shorter than `LINE_MAX` the
tokenizer with its buffer of `LINE_MAX` bytes never writes outside the buffer,
returns what the tokenizer without a bound returns, and the token it returns
is shorter than `LINE_MAX`, which leaves a NUL after it in the buffer. -/
theorem token_fits_buffer (input : List Char) :
    (∀ t n, parseString input = (.token t, n) → t.length ≤ n) ∧
      (input.length < LINE_MAX →
        parseStringBuf LINE_MAX input = some (parseString input) ∧
          ∀ t n, parseString input = (.token t, n) → t.length < LINE_MAX) := by
  have hlen : ∀ t n, parseString input = (.token t, n) → t.length ≤ n ∧ n ≤ input.length := by
    intro t n h
    obtain ⟨ws, ps, rest, _, ht, hcase⟩ := parseString_token_shape input t n h
    have hps := length_le_length_sources ps
    have htl : t.length = ps.length := by rw [ht]; simp [values]
    rcases hcase with ⟨q, _, _, hin, hhead, hn⟩ | ⟨_, _, _, hin, hstop⟩
    · have hrest : 1 ≤ rest.length := by
        cases rest with
        | nil => simp at hhead
        | cons a r => simp
      have hl : input.length = ws.length + (1 + ((sources ps).length + rest.length)) := by
        rw [hin]; simp; omega
      omega
    · have hl : input.length = ws.length + ((sources ps).length + rest.length) := by
        rw [hin]; simp
      rcases hstop with ⟨hhead, hn⟩ | ⟨_, hn⟩
      · have hrest : 1 ≤ rest.length := by
          cases rest with
          | nil => simp at hhead
          | cons a r => simp
        omega
      · omega
  refine ⟨fun t n h => (hlen t n h).1, fun hshort => ⟨parseStringBuf_eq _ _ hshort, ?_⟩⟩
  intro t n h
  have := hlen t n h
  omega

/-- C19 on the line `'a b' c`: the token of three characters comes from five
characters of the input, and the tokenizer with its buffer agrees with the
tokenizer without a bound. -/
theorem token_fits_buffer_witness :
    parseString "'a b' c".toList = (.token "a b".toList, 5) ∧ "a b".toList.length ≤ 5 ∧
      parseStringBuf LINE_MAX "'a b' c".toList = some (parseString "'a b' c".toList) :=
  ⟨by decide, (token_fits_buffer "'a b' c".toList).1 _ _ (by decide),
    ((token_fits_buffer "'a b' c".toList).2 (by decide)).1⟩

end LevelDBRepl
